import Mathlib

/-!
# Verification of the pymks spatial-correlation / Fourier-regression engine

This file is a shallow embedding, in Lean 4, of the numeric core of the
`pymks` repository (files `pymks/filter.py`, `pymks/mksRegressionModel.py`,
`pymks/tools.py`), together with proofs and refutations of a fixed list of
behavioural claims about that code.

Modelling conventions:

* A numpy `nd`-array with shape `(S, n_1, ..., n_d, L)` is modelled by its
  shape data (`S : ℕ`, `n : Fin d → ℕ`, `L : ℕ`) together with a total data
  function (`ℕ → (Fin d → ℕ) → ℕ → ℂ` and similar); operations only ever
  read indices inside the declared shape.
* `np.fft.fftn` / `np.fft.ifftn` over the spatial axes are modelled by the
  exact discrete Fourier transform `dftn` / `idftn` below (numpy convention:
  no scaling on the forward transform, `1/N` on the inverse).
* Real floating point arithmetic is modelled by exact arithmetic over
  `ℝ` / `ℂ`; "equal to numerical tolerance" becomes exact equality.
* Python exceptions are modelled with `Except String`.
-/

namespace PyMKS

/-! ## Spatial multi-indices

A `d`-dimensional spatial multi-index; the spatial shape of an array is
itself such a tuple of extents. -/

abbrev SpIdx (d : ℕ) := Fin d → ℕ

variable {d : ℕ}

/-- The multi-index `j` lies inside the spatial shape `n`. -/
def inRange (n j : SpIdx d) : Prop := ∀ a, j a < n a

instance (n j : SpIdx d) : Decidable (inRange n j) := by
  unfold inRange; infer_instance

/-- All multi-indices inside the spatial shape `n`. -/
def spFinset (n : SpIdx d) : Finset (SpIdx d) :=
  Fintype.piFinset fun a => Finset.range (n a)

theorem mem_spFinset {n j : SpIdx d} : j ∈ spFinset n ↔ inRange n j := by
  simp [spFinset, Fintype.mem_piFinset, inRange]

/-! ## The discrete Fourier transform over the spatial axes -/

/-- Forward DFT twiddle factor `e^{-2πi·t/m}` (numpy `fftn` convention). -/
noncomputable def wexp (m t : ℕ) : ℂ :=
  Complex.exp (-(2 * Real.pi * Complex.I * t / m))

/-- Inverse DFT twiddle factor `e^{+2πi·t/m}` (numpy `ifftn` convention). -/
noncomputable def wexpInv (m t : ℕ) : ℂ :=
  Complex.exp (2 * Real.pi * Complex.I * t / m)

/-- `np.fft.fftn` over the spatial axes: no normalization. -/
noncomputable def dftn (n : SpIdx d) (x : SpIdx d → ℂ) (k : SpIdx d) : ℂ :=
  ∑ j ∈ spFinset n, x j * ∏ a, wexp (n a) (j a * k a)

/-- `np.fft.ifftn` over the spatial axes: normalized by the total size. -/
noncomputable def idftn (n : SpIdx d) (x : SpIdx d → ℂ) (j : SpIdx d) : ℂ :=
  (∏ a, (n a : ℂ))⁻¹ * ∑ k ∈ spFinset n, x k * ∏ a, wexpInv (n a) (k a * j a)

/-- One-dimensional orthogonality of the DFT characters: summing
`e^{2πi·k(p-q)/m}` over one period gives `m` on the diagonal, `0` off it. -/
theorem sum_wexpInv_mul_wexp (m p q : ℕ) (hp : p < m) (hq : q < m) :
    ∑ k ∈ Finset.range m, wexpInv m (k * p) * wexp m (k * q) =
      if p = q then (m : ℂ) else 0 := by
  have hm0 : (m : ℂ) ≠ 0 := Nat.cast_ne_zero.mpr (by omega)
  set z : ℂ := 2 * Real.pi * Complex.I * ((p : ℂ) - (q : ℂ)) / m with hz
  have hterm : ∀ k : ℕ, wexpInv m (k * p) * wexp m (k * q) = Complex.exp z ^ k := by
    intro k
    rw [wexpInv, wexp, ← Complex.exp_add, ← Complex.exp_nat_mul]
    congr 1
    rw [hz]
    push_cast
    field_simp [hm0]
    ring
  simp only [hterm]
  by_cases hpq : p = q
  · subst hpq
    have : z = 0 := by rw [hz]; ring
    simp [this]
  · rw [if_neg hpq]
    have hzne : Complex.exp z ≠ 1 := by
      intro h
      rcases Complex.exp_eq_one_iff.mp h with ⟨t, ht⟩
      rw [hz] at ht
      have h2 : (2 : ℂ) * Real.pi * Complex.I ≠ 0 := by
        simp [Real.pi_ne_zero, Complex.I_ne_zero]
      have : ((p : ℂ) - q) = t * m := by
        field_simp at ht
        refine mul_left_cancel₀ h2 ?_
        calc (2 : ℂ) * Real.pi * Complex.I * ((p : ℂ) - q)
              = t * (2 * Real.pi * Complex.I) * m := ht
          _ = 2 * Real.pi * Complex.I * (t * m) := by ring
      have hcast : ((p : ℤ) - q : ℤ) = t * m := by
        exact_mod_cast this
      have habs : (p : ℤ) - q ≠ 0 := by
        simp only [sub_ne_zero]
        exact_mod_cast hpq
      have hlt1 : (p : ℤ) - q < m := by omega
      have hlt2 : -(m : ℤ) < (p : ℤ) - q := by omega
      rcases lt_trichotomy t 0 with htn | htz | htp
      · have : t * m ≤ -(m : ℤ) := by
          have hm1 : (1 : ℤ) ≤ m := by omega
          nlinarith
        omega
      · rw [htz] at hcast; simp at hcast; omega
      · have : (m : ℤ) ≤ t * m := by
          have hm1 : (1 : ℤ) ≤ m := by omega
          nlinarith
        omega
    rw [geom_sum_eq hzne]
    have hpow : Complex.exp z ^ m = 1 := by
      rw [← Complex.exp_nat_mul]
      have : (m : ℂ) * z = ((p : ℤ) - (q : ℤ)) * (2 * Real.pi * Complex.I) := by
        rw [hz]; push_cast; field_simp; ring
      rw [this]
      exact_mod_cast Complex.exp_int_mul_two_pi_mul_I ((p : ℤ) - q)
    rw [hpow]
    simp

/-- Summing the forward character alone: `m` when the frequency is `0`
(mod the extent), else `0`. -/
theorem sum_wexp (m q : ℕ) (hq : q < m) :
    ∑ j ∈ Finset.range m, wexp m (j * q) = if q = 0 then (m : ℂ) else 0 := by
  have h := sum_wexpInv_mul_wexp m 0 q (lt_of_le_of_lt (Nat.zero_le q) hq) hq
  simp only [Nat.mul_zero, wexpInv, Nat.cast_zero, mul_zero, zero_div,
    Complex.exp_zero, one_mul] at h
  rw [h]
  by_cases h0 : q = 0 <;> simp [h0]
  · intro hq0; omega

/-- Positivity of the total spatial size, from any in-range index. -/
theorem prodSize_ne_zero {n : SpIdx d} {j : SpIdx d} (h : inRange n j) :
    (∏ a, (n a : ℂ)) ≠ 0 := by
  rw [Finset.prod_ne_zero_iff]
  intro a _
  have := h a
  exact Nat.cast_ne_zero.mpr (by omega)

/-- Fourier inversion: `ifftn (fftn x) = x` at every in-range index. -/
theorem idftn_dftn (n : SpIdx d) (x : SpIdx d → ℂ) (j : SpIdx d)
    (h : inRange n j) : idftn n (dftn n x) j = x j := by
  unfold idftn dftn
  have step : ∀ k ∈ spFinset n,
      (∑ j' ∈ spFinset n, x j' * ∏ a, wexp (n a) (j' a * k a)) *
        ∏ a, wexpInv (n a) (k a * j a) =
      ∑ j' ∈ spFinset n, x j' *
          ∏ a, wexpInv (n a) (k a * j a) * wexp (n a) (j' a * k a) := by
    intro k _
    rw [Finset.sum_mul]
    refine Finset.sum_congr rfl fun j' _ => ?_
    rw [mul_assoc, ← Finset.prod_mul_distrib]
    congr 1
    refine Finset.prod_congr rfl fun a _ => mul_comm _ _
  rw [Finset.sum_congr rfl step, Finset.sum_comm]
  have inner : ∀ j' ∈ spFinset n,
      (∑ k ∈ spFinset n, x j' *
        ∏ a, wexpInv (n a) (k a * j a) * wexp (n a) (j' a * k a)) =
      x j' * ∏ a, ∑ t ∈ Finset.range (n a),
        wexpInv (n a) (t * j a) * wexp (n a) (j' a * t) := by
    intro j' _
    rw [← Finset.mul_sum, Finset.prod_univ_sum]
    rfl
  rw [Finset.sum_congr rfl inner]
  have diag : ∀ j' ∈ spFinset n,
      x j' * ∏ a, ∑ t ∈ Finset.range (n a),
          wexpInv (n a) (t * j a) * wexp (n a) (j' a * t) =
      x j' * if j' = j then ∏ a, (n a : ℂ) else 0 := by
    intro j' hj'
    congr 1
    have hj'r : inRange n j' := mem_spFinset.mp hj'
    have hax : ∀ a, (∑ t ∈ Finset.range (n a),
        wexpInv (n a) (t * j a) * wexp (n a) (j' a * t)) =
        if j a = j' a then ((n a : ℕ) : ℂ) else 0 := by
      intro a
      have := sum_wexpInv_mul_wexp (n a) (j a) (j' a) (h a) (hj'r a)
      rw [← this]
      refine Finset.sum_congr rfl fun t _ => ?_
      rw [Nat.mul_comm (j' a) t]
    rw [Finset.prod_congr rfl fun a _ => hax a]
    by_cases hjj : j' = j
    · subst hjj; simp
    · have : ∃ a, j a ≠ j' a := by
        by_contra hcon
        push_neg at hcon
        exact hjj (funext fun a => (hcon a).symm)
      rcases this with ⟨a, ha⟩
      rw [if_neg hjj]
      exact Finset.prod_eq_zero (Finset.mem_univ a) (if_neg ha)
  rw [Finset.sum_congr rfl diag]
  simp only [mul_ite, mul_zero]
  rw [Finset.sum_ite_eq' (spFinset n) j (fun j' => x j' * ∏ a, (n a : ℂ))]
  rw [if_pos (mem_spFinset.mpr h)]
  rw [inv_mul_eq_div, mul_div_assoc, div_self (prodSize_ne_zero h), mul_one]

/-- Fourier inversion the other way: `fftn (ifftn x) = x` at every in-range
frequency. -/
theorem dftn_idftn (n : SpIdx d) (x : SpIdx d → ℂ) (k : SpIdx d)
    (h : inRange n k) : dftn n (idftn n x) k = x k := by
  unfold dftn idftn
  have step : ∀ j ∈ spFinset n,
      ((∏ a, (n a : ℂ))⁻¹ *
          ∑ k' ∈ spFinset n, x k' * ∏ a, wexpInv (n a) (k' a * j a)) *
        ∏ a, wexp (n a) (j a * k a) =
      (∏ a, (n a : ℂ))⁻¹ *
        ∑ k' ∈ spFinset n, x k' *
          ∏ a, wexpInv (n a) (j a * k' a) * wexp (n a) (j a * k a) := by
    intro j _
    rw [mul_assoc]
    congr 1
    rw [Finset.sum_mul]
    refine Finset.sum_congr rfl fun k' _ => ?_
    rw [mul_assoc, ← Finset.prod_mul_distrib]
    congr 1
    refine Finset.prod_congr rfl fun a _ => by rw [Nat.mul_comm (k' a) (j a)]
  rw [Finset.sum_congr rfl step, ← Finset.mul_sum, Finset.sum_comm]
  have inner : ∀ k' ∈ spFinset n,
      (∑ j ∈ spFinset n, x k' *
        ∏ a, wexpInv (n a) (j a * k' a) * wexp (n a) (j a * k a)) =
      x k' * ∏ a, ∑ t ∈ Finset.range (n a),
        wexpInv (n a) (t * k' a) * wexp (n a) (t * k a) := by
    intro k' _
    rw [← Finset.mul_sum, Finset.prod_univ_sum]
    rfl
  rw [Finset.sum_congr rfl inner]
  have diag : ∀ k' ∈ spFinset n,
      x k' * ∏ a, ∑ t ∈ Finset.range (n a),
          wexpInv (n a) (t * k' a) * wexp (n a) (t * k a) =
      x k' * if k' = k then ∏ a, (n a : ℂ) else 0 := by
    intro k' hk'
    congr 1
    have hk'r : inRange n k' := mem_spFinset.mp hk'
    have hax : ∀ a, (∑ t ∈ Finset.range (n a),
        wexpInv (n a) (t * k' a) * wexp (n a) (t * k a)) =
        if k' a = k a then ((n a : ℕ) : ℂ) else 0 :=
      fun a => sum_wexpInv_mul_wexp (n a) (k' a) (k a) (hk'r a) (h a)
    rw [Finset.prod_congr rfl fun a _ => hax a]
    by_cases hkk : k' = k
    · subst hkk; simp
    · have : ∃ a, k' a ≠ k a := by
        by_contra hcon
        push_neg at hcon
        exact hkk (funext hcon)
      rcases this with ⟨a, ha⟩
      rw [if_neg hkk]
      exact Finset.prod_eq_zero (Finset.mem_univ a) (if_neg ha)
  rw [Finset.sum_congr rfl diag]
  simp only [mul_ite, mul_zero]
  rw [Finset.sum_ite_eq' (spFinset n) k (fun k' => x k' * ∏ a, (n a : ℂ))]
  rw [if_pos (mem_spFinset.mpr h)]
  rw [inv_mul_eq_div, mul_div_assoc, div_self (prodSize_ne_zero h), mul_one]

/-- The forward DFT of the constant-one array vanishes at every nonzero
in-range frequency (the partition-of-unity computation behind the
rank-deficiency of the nonzero-frequency least-squares systems). -/
theorem dftn_one_eq_zero (n : SpIdx d) (k : SpIdx d) (h : inRange n k)
    (hk : k ≠ fun _ => 0) : dftn n (fun _ => 1) k = 0 := by
  unfold dftn
  simp only [one_mul]
  rw [spFinset, ← Finset.prod_univ_sum (fun a => Finset.range (n a))
    (fun a t => wexp (n a) (t * k a))]
  have : ∃ a, k a ≠ 0 := by
    by_contra hcon
    push_neg at hcon
    exact hk (funext hcon)
  rcases this with ⟨a, ha⟩
  refine Finset.prod_eq_zero (Finset.mem_univ a) ?_
  have := sum_wexp (n a) (k a) (h a)
  rw [this, if_neg ha]

/-! ## `np.fft.fftshift` / `np.fft.ifftshift` over the spatial axes

`np.fft.fftshift` rolls every spatial axis by `n // 2`; `np.fft.ifftshift`
rolls it back.  Reading the rolled array at `j` reads the original array at
the mapped index below. -/

/-- Index map of `np.fft.fftshift`: reading `fftshift x` at `j` reads `x` at
`(j + (n - n/2)) % n` on every spatial axis. -/
def fftshiftIdx (n : SpIdx d) (j : SpIdx d) : SpIdx d :=
  fun a => (j a + (n a - n a / 2)) % n a

/-- Index map of `np.fft.ifftshift`: reading `ifftshift x` at `j` reads `x`
at `(j + n/2) % n` on every spatial axis. -/
def ifftshiftIdx (n : SpIdx d) (j : SpIdx d) : SpIdx d :=
  fun a => (j a + n a / 2) % n a

theorem inRange_fftshiftIdx {n j : SpIdx d} (h : inRange n j) :
    inRange n (fftshiftIdx n j) := by
  intro a
  exact Nat.mod_lt _ (by have := h a; omega)

theorem inRange_ifftshiftIdx {n j : SpIdx d} (h : inRange n j) :
    inRange n (ifftshiftIdx n j) := by
  intro a
  exact Nat.mod_lt _ (by have := h a; omega)

/-- `fftshift` after `ifftshift` is the identity on in-range indices. -/
theorem ifftshiftIdx_fftshiftIdx {n j : SpIdx d} (h : inRange n j) :
    ifftshiftIdx n (fftshiftIdx n j) = j := by
  funext a
  have hj := h a
  have hn : 0 < n a := by omega
  have hc : n a / 2 ≤ n a := Nat.div_le_self _ _
  simp only [ifftshiftIdx, fftshiftIdx]
  rw [Nat.mod_add_mod]
  have : j a + (n a - n a / 2) + n a / 2 = j a + n a := by omega
  rw [this, Nat.add_mod_right, Nat.mod_eq_of_lt hj]

/-- `ifftshift` after `fftshift` is the identity on in-range indices. -/
theorem fftshiftIdx_ifftshiftIdx {n j : SpIdx d} (h : inRange n j) :
    fftshiftIdx n (ifftshiftIdx n j) = j := by
  funext a
  have hj := h a
  have hn : 0 < n a := by omega
  have hc : n a / 2 ≤ n a := Nat.div_le_self _ _
  simp only [ifftshiftIdx, fftshiftIdx]
  rw [Nat.mod_add_mod]
  have : j a + n a / 2 + (n a - n a / 2) = j a + n a := by omega
  rw [this, Nat.add_mod_right, Nat.mod_eq_of_lt hj]

/-- `np.real_if_close`, at the level of a single entry: when the imaginary
part is (numerically) zero the value is returned as a real; in the exact
model this never changes the complex value. -/
noncomputable def realIfClose (z : ℂ) : ℂ := if z.im = 0 then (z.re : ℂ) else z

theorem realIfClose_eq (z : ℂ) : realIfClose z = z := by
  unfold realIfClose
  split
  · rename_i h
    exact Complex.ext rfl (by simp [h])
  · rfl

/-! ## The numpy array model

`NDArray d` models a complex array of shape `(S, n 0, ..., n (d-1), L)`:
a sample axis, `d` spatial axes and a trailing local-state axis, the layout
used for discretized microstructures and kernels throughout `pymks`.
`RealArr d` models a real array of shape `(S, n 0, ..., n (d-1))`, the
layout of raw microstructures and response fields. -/

structure NDArray (d : ℕ) where
  S : ℕ
  sp : SpIdx d
  L : ℕ
  data : ℕ → SpIdx d → ℕ → ℂ

structure RealArr (d : ℕ) where
  S : ℕ
  sp : SpIdx d
  data : ℕ → SpIdx d → ℝ

/-- The full numpy shape of an `NDArray`, as compared by `==`/`!=` on shape
tuples in the source. -/
def NDArray.shape (x : NDArray d) : ℕ × SpIdx d × ℕ := (x.S, x.sp, x.L)


/-! ## The basis FFT helpers

Modelled from the spec: the bases' `_fftn` / `_ifftn` members and their
`_axes` attribute live in `pymks/bases/abstract.py`, which is absent from
the source tree (only `bases/imag_ffts.py` is present and forwards to
`fftmodule.fftn(X, axes=self._axes)`).  Per spec §3, Fourier-domain arrays
are "always the DFT … over exactly the spatial axes", so `_axes` is the
spatial axes and `_fftn` / `_ifftn` are the plain (i)DFT over them. -/

/-- `basis._fftn`: forward DFT over the spatial axes of an `(S, spatial...,
L)` array. -/
noncomputable def basis_fftn (x : NDArray d) : NDArray d :=
  ⟨x.S, x.sp, x.L, fun s k l => dftn x.sp (fun j => x.data s j l) k⟩

/-- `basis._ifftn`: inverse DFT over the spatial axes. -/
noncomputable def basis_ifftn (x : NDArray d) : NDArray d :=
  ⟨x.S, x.sp, x.L, fun s j l => idftn x.sp (fun k => x.data s k l) j⟩

/-! ## `pymks/filter.py`: `Filter` -/

namespace Filter

/-- Amount of zero padding placed *before* the data on each axis:
`padup = padsize - padsize // 2` in `Filter._zero_pad_and_transform` and
`MKSRegressionModel.resize_coeff` (the `np.pad` pad-width pair is
`(padup, paddown)`, i.e. `padup` before, `paddown` after). -/
def padUp (old new : SpIdx d) : SpIdx d :=
  fun a => (new a - old a) - (new a - old a) / 2

/-- Amount of zero padding placed *after* the data on each axis:
`paddown = padsize // 2`. -/
def padDown (old new : SpIdx d) : SpIdx d :=
  fun a => (new a - old a) / 2

/-- The result of `np.pad(kernel, pads, 'constant')` in
`_zero_pad_and_transform`: spatial axes padded with `(padup, paddown)`,
sample and state axes padded with `(0, 0)`. -/
def padSpatial (x : NDArray d) (size : SpIdx d) : NDArray d :=
  ⟨x.S, size, x.L, fun s j l =>
    if ∀ a, padUp x.sp size a ≤ j a ∧ j a < padUp x.sp size a + x.sp a
    then x.data s (fun a => j a - padUp x.sp size a) l
    else 0⟩

/-- `Filter._zero_pad_and_transform(kernel, size)` (despite the name it
only zero-pads): fails like `np.pad` does when some requested spatial
extent is smaller than the current one (negative pad width). -/
def _zero_pad_and_transform (x : NDArray d) (size : SpIdx d) :
    Except String (NDArray d) :=
  if ∀ a, x.sp a ≤ size a then .ok (padSpatial x size)
  else .error "index can't contain negative values"

/-- `Filter._frequency_2_real`: inverse DFT over spatial axes, origin
shifted to the center, `np.real_if_close`. -/
noncomputable def _frequency_2_real (Fkernel : NDArray d) : NDArray d :=
  ⟨Fkernel.S, Fkernel.sp, Fkernel.L, fun s j l =>
    realIfClose ((basis_ifftn Fkernel).data s (fftshiftIdx Fkernel.sp j) l)⟩

/-- `Filter._real_2_frequency`: `ifftshift` then forward DFT over spatial
axes. -/
noncomputable def _real_2_frequency (kernel : NDArray d) : NDArray d :=
  basis_fftn ⟨kernel.S, kernel.sp, kernel.L, fun s j l =>
    kernel.data s (ifftshiftIdx kernel.sp j) l⟩

/-- numpy broadcasting of an axis of extent `m` against a partner axis:
an extent-1 axis is repeated (index pinned to `0`). -/
def bcast (m : ℕ) (i : ℕ) : ℕ := if m = 1 then 0 else i

/-- `Filter.convolve(X)`: checks `X.shape[1:] != Fkernel.shape[1:]`, then
multiplies spectra (broadcasting over the sample axis), sums over the
trailing state axis, inverse-transforms and takes the real part. -/
noncomputable def convolve (Fkernel X : NDArray d) :
    Except String (RealArr d) :=
  if (X.sp, X.L) ≠ (Fkernel.sp, Fkernel.L) then
    .error "Dimensions of X are incorrect."
  else if X.S = Fkernel.S ∨ Fkernel.S = 1 ∨ X.S = 1 then
    .ok ⟨max X.S Fkernel.S, X.sp, fun s j =>
      (idftn X.sp (fun k =>
        ∑ l ∈ Finset.range X.L,
          dftn X.sp (fun j' => X.data (bcast X.S s) j' l) k *
            Fkernel.data (bcast Fkernel.S s) k l) j).re⟩
  else .error "operands could not be broadcast together"

/-- `Filter.resize(size)`: size check, kernel to real space, zero pad,
back to frequency space. -/
noncomputable def resize (Fkernel : NDArray d) (size : SpIdx d) :
    Except String (NDArray d) :=
  if ¬ (∀ a, Fkernel.sp a ≤ size a) then
    .error "resize shape is too small."
  else do
    let kernel := _frequency_2_real Fkernel
    let kernel_pad ← _zero_pad_and_transform kernel size
    pure (_real_2_frequency kernel_pad)

end Filter

/-! ## `pymks/filter.py`: `Correlation` (subclass of `Filter`) -/

namespace Correlation

/-- `Correlation.__init__(kernel, basis, Fkernel_shape)`: optionally pads
the real-space kernel, forward-transforms it and stores the *conjugated*
spectrum as `_Fkernel`. -/
noncomputable def init (kernel : NDArray d) (Fkernel_shape : Option (SpIdx d)) :
    Except String (NDArray d) := do
  let kernel' ← match Fkernel_shape with
    | some sh => Filter._zero_pad_and_transform kernel sh
    | none => pure kernel
  let Fk := basis_fftn kernel'
  pure ⟨Fk.S, Fk.sp, Fk.L, fun s k l => starRingEnd ℂ (Fk.data s k l)⟩

/-- `Correlation.convolve(X)`: if the full shapes differ the input is
*zero-padded* to the kernel's spatial shape (no error); the spectra are
multiplied without summing over the state axis (`Correlation._sum` is the
identity), inverse-transformed (keeping the complex values) and
`fftshift`ed over the spatial axes. -/
noncomputable def convolve (Fkernel X : NDArray d) :
    Except String (NDArray d) := do
  let X' ← if X.shape = Fkernel.shape then pure X
           else Filter._zero_pad_and_transform X Fkernel.sp
  if (X'.S = Fkernel.S ∨ Fkernel.S = 1 ∨ X'.S = 1) ∧
     (X'.L = Fkernel.L ∨ Fkernel.L = 1 ∨ X'.L = 1) then
    pure ⟨max X'.S Fkernel.S, X'.sp, max X'.L Fkernel.L, fun s j l =>
      idftn X'.sp (fun k =>
        dftn X'.sp (fun j' => X'.data (Filter.bcast X'.S s) j' (Filter.bcast X'.L l)) k *
          Fkernel.data (Filter.bcast Fkernel.S s) k (Filter.bcast Fkernel.L l))
        (fftshiftIdx X'.sp j)⟩
  else .error "operands could not be broadcast together"

end Correlation

/-! ## `pymks/mksRegressionModel.py`: `MKSRegressionModel`

The basis passed to the constructor is duck-typed in the source (any
object with `discretize` and `n_states`); it is modelled as a record of
those two members.  `np.linalg.lstsq` is an external numpy routine, not
repository code: it is modelled as an abstract solver argument
`lstsq S m A b` (an `S × m` system with right-hand side `b`); theorems
that need its least-squares semantics take them as explicit hypotheses. -/

structure BasisModel (d : ℕ) where
  n_states : ℕ
  discretize : (ℕ → SpIdx d → ℝ) → (ℕ → SpIdx d → ℕ → ℝ)

structure FittedCoeff (d : ℕ) where
  sp : SpIdx d
  L : ℕ
  data : SpIdx d → ℕ → ℂ

/-- The model object: the constructor stores the basis; `Fcoeff` is the
attribute created by `fit` (absent — `none` — before `fit` has run). -/
structure MKSRegressionModel (d : ℕ) where
  basis : BasisModel d
  Fcoeff : Option (FittedCoeff d)

/-- A solver for `np.linalg.lstsq`: `lstsq S m A b` receives an `S × m`
matrix and a length-`S` right-hand side and returns a length-`m`
coefficient vector. -/
abbrev Lstsq := ℕ → ℕ → (ℕ → ℕ → ℂ) → (ℕ → ℂ) → (ℕ → ℂ)

namespace MKSRegressionModel

/-- `MKSRegressionModel._discrtizefft`: discretize with the basis, then
forward DFT over the spatial axes. -/
noncomputable def _discrtizefft (m : MKSRegressionModel d) (X : RealArr d) :
    ℕ → SpIdx d → ℕ → ℂ :=
  fun s k l =>
    dftn X.sp (fun j => ((m.basis.discretize X.data) s j l : ℂ)) k

/-- `MKSRegressionModel.fit(X, y)`: shape checks, then one least-squares
solve per spatial frequency into an `np.zeros` coefficient array: the full
`n_states`-column system at the zero frequency, the system over all states
but the last (`slice(-1)`) elsewhere. -/
noncomputable def fit (lstsq : Lstsq) (m : MKSRegressionModel d)
    (X y : RealArr d) : Except String (MKSRegressionModel d) :=
  if d = 0 then .error "The shape of y is incorrect."
  else if (y.S, y.sp) ≠ (X.S, X.sp) then .error "X and y must be the same shape."
  else
    let L := m.basis.n_states
    let FX := m._discrtizefft X
    let Fy : ℕ → SpIdx d → ℂ := fun s k => dftn X.sp (fun j => (y.data s j : ℂ)) k
    let Fc : SpIdx d → ℕ → ℂ := fun k l =>
      if inRange X.sp k ∧ l < L then
        (if ∀ a, k a = 0 then
          lstsq X.S L (fun s l' => FX s k l') (fun s => Fy s k) l
        else if l < L - 1 then
          lstsq X.S (L - 1) (fun s l' => FX s k l') (fun s => Fy s k) l
        else 0)
      else 0
    .ok { m with Fcoeff := some ⟨X.sp, L, Fc⟩ }

/-- The `MKSRegressionModel.coeff` property: inverse DFT of `Fcoeff` over
the spatial axes, origin shifted to the center, `np.real_if_close`.
Accessing it on an unfitted model raises Python's `AttributeError` for the
missing `Fcoeff` attribute. -/
noncomputable def coeff (m : MKSRegressionModel d) :
    Except String (SpIdx d → ℕ → ℂ) :=
  match m.Fcoeff with
  | none => .error "'MKSRegressionModel' object has no attribute 'Fcoeff'"
  | some fc => .ok fun j l =>
      realIfClose (idftn fc.sp (fun k => fc.data k l) (fftshiftIdx fc.sp j))

/-- `MKSRegressionModel.predict(X)`, as a state transformer: the method
reads `self.Fcoeff` (failing with the explicit "fit() method must be run
before predict()." `AttributeError` when absent), checks the spatial
shape, and writes no attribute of `self`. -/
noncomputable def predict (m : MKSRegressionModel d) (X : RealArr d) :
    MKSRegressionModel d × Except String (RealArr d) :=
  (m,
    match m.Fcoeff with
    | none => .error "fit() method must be run before predict()."
    | some fc =>
      if X.sp ≠ fc.sp then .error "Dimension of X are incorrect."
      else .ok ⟨X.S, X.sp, fun s j =>
        (idftn X.sp (fun k =>
          ∑ l ∈ Finset.range fc.L, m._discrtizefft X s k l * fc.data k l) j).re⟩)

/-- `MKSRegressionModel.resize_coeff(shape)`: grow-only size check, real
space via the `coeff` property, `np.pad` with `(padup, paddown)` per
spatial axis, back to frequency space via `coeffToFcoeff`
(`fftn ∘ ifftshift`). -/
noncomputable def resize_coeff (m : MKSRegressionModel d) (shape : SpIdx d) :
    Except String (MKSRegressionModel d) :=
  match m.Fcoeff with
  | none => .error "'MKSRegressionModel' object has no attribute 'Fcoeff'"
  | some fc =>
    if ¬ (∀ a, fc.sp a ≤ shape a) then .error "resize shape is too small."
    else
      let coeffR : SpIdx d → ℕ → ℂ := fun j l =>
        realIfClose (idftn fc.sp (fun k => fc.data k l) (fftshiftIdx fc.sp j))
      let coeff_pad : SpIdx d → ℕ → ℂ := fun j l =>
        if ∀ a, Filter.padUp fc.sp shape a ≤ j a ∧
                j a < Filter.padUp fc.sp shape a + fc.sp a
        then coeffR (fun a => j a - Filter.padUp fc.sp shape a) l
        else 0
      let Fc : SpIdx d → ℕ → ℂ := fun k l =>
        dftn shape (fun j => coeff_pad (ifftshiftIdx shape j) l) k
      .ok { m with Fcoeff := some ⟨shape, fc.L, Fc⟩ }

end MKSRegressionModel

/-! ## `pymks/tools.py` -/

namespace tools

/-- `np.linspace(0, 1, n_bins)`: the `i`-th of `n_bins` evenly spaced
nodes from `0` to `1` inclusive. -/
noncomputable def linspace01 (n_bins : ℕ) (i : ℕ) : ℝ :=
  i * (1 / ((n_bins : ℝ) - 1))

/-- `tools.bin(arr, n_bins)`: tent-function discretization of a 1-D array
with entries in `[0, 1]`; row `t`, column `i` of the result. -/
noncomputable def bin (arr : ℕ → ℝ) (n_bins : ℕ) : ℕ → ℕ → ℝ :=
  fun t i =>
    max (1 - |arr t - linspace01 n_bins i| / (linspace01 n_bins 1 - linspace01 n_bins 0)) 0

/-- `np.roll(l, i)`: rotate a list `i` places to the right. -/
def np_roll {α : Type} (l : List α) (i : ℕ) : List α :=
  l.rotate (l.length - i % l.length)

/-- `tools._get_crosscorrelation_titles(n_states)`: the state sequence
`1..n_states` zipped against its right-rotations by `1..n_states/2`,
concatenated and truncated to `n_states*(n_states-1)/2` entries (integer
division as in Python 2). -/
def _get_crosscorrelation_titles (n_states : ℕ) : List (ℕ × ℕ) :=
  let states := (List.range n_states).map (· + 1)
  let Niter := n_states / 2
  let Nslice := n_states * (n_states - 1) / 2
  let tmp := (List.range Niter).map fun i => states.zip (np_roll states (i + 1))
  tmp.flatten.take Nslice

end tools

/-! ## Concrete instances used by witnesses and counterexamples -/

/-- Whether an `Except` value is a success. -/
def exceptOk {ε α : Type} : Except ε α → Bool
  | .ok _ => true
  | .error _ => false

/-- A concrete 1-D basis: one state, indicator identically `1`
(partition of unity holds trivially). -/
def cBasis : BasisModel 1 := ⟨1, fun _X => fun _s _j _l => 1⟩

/-- A model that has not been fitted. -/
def cModelUnfit : MKSRegressionModel 1 := ⟨cBasis, none⟩

/-- A concrete `(1, 1)`-shaped real array with zero data. -/
def cX : RealArr 1 := ⟨1, fun _ => 1, fun _ _ => 0⟩

/-- A concrete `(1, 3, 1)`-shaped complex array of ones. -/
def cKer3 : NDArray 1 := ⟨1, fun _ => 3, 1, fun _ _ _ => 1⟩

/-- A concrete `(1, 2, 1)`-shaped complex array of ones: its spatial/state
shape does not match `cKer3`'s. -/
def cX2 : NDArray 1 := ⟨1, fun _ => 2, 1, fun _ _ _ => 1⟩

/-- The trivial solver, used only to instantiate structural theorems. -/
def cLstsq : Lstsq := fun _ _ _ _ _ => 0

/-! ## C6: use before fit -/

/-- C6: on a model on which `fit` has not run (`Fcoeff` absent), `predict`
fails with the explicit "fit() method must be run before predict()."
error and the `coeff` property fails with the missing-attribute
`AttributeError`; neither returns data. -/
theorem C6_use_before_fit (m : MKSRegressionModel d) (X : RealArr d)
    (h : m.Fcoeff = none) :
    (m.predict X).2 = .error "fit() method must be run before predict()." ∧
    m.coeff = .error "'MKSRegressionModel' object has no attribute 'Fcoeff'" := by
  unfold MKSRegressionModel.predict MKSRegressionModel.coeff
  rw [h]
  exact ⟨rfl, rfl⟩

/-- Witness for C6 at a concrete unfitted model. -/
theorem C6_use_before_fit_witness :
    cModelUnfit.Fcoeff = none ∧
    ((cModelUnfit.predict cX).2 =
        .error "fit() method must be run before predict()." ∧
      cModelUnfit.coeff =
        .error "'MKSRegressionModel' object has no attribute 'Fcoeff'") :=
  ⟨rfl, C6_use_before_fit cModelUnfit cX rfl⟩

/-! ## C9: predict is read-only on the model -/

/-- C9: `predict` leaves the model object — in particular the stored
`Fcoeff` — unchanged, and calling it again on the resulting state with the
same input returns the identical result. -/
theorem C9_predict_frame (m : MKSRegressionModel d) (X : RealArr d) :
    (m.predict X).1 = m ∧ (m.predict X).1.Fcoeff = m.Fcoeff ∧
    ((m.predict X).1.predict X).2 = (m.predict X).2 :=
  ⟨rfl, rfl, rfl⟩

/-! ## C1: the per-frequency structure of `fit` -/

/-- C1: for same-shaped calibration data, `fit` fills the coefficient
array one spatial frequency at a time with the solver's output for the
regression of the response spectrum slice against the discretized
microstructure spectrum slice across samples: at the zero frequency all
`n_states` columns are in the system, at a nonzero frequency only the
states before the last one are (`slice(-1)`) and the last state's
coefficient is left at the `np.zeros` initialization. -/
theorem C1_fit_per_frequency (lstsq : Lstsq) (m : MKSRegressionModel d)
    (X y : RealArr d) (hd : d ≠ 0) (hsh : (y.S, y.sp) = (X.S, X.sp))
    (k : SpIdx d) (hk : inRange X.sp k) :
    ∃ m', m.fit lstsq X y = .ok m' ∧ ∃ fc, m'.Fcoeff = some fc ∧
      fc.sp = X.sp ∧ fc.L = m.basis.n_states ∧
      ((∀ a, k a = 0) → ∀ l, l < m.basis.n_states →
        fc.data k l =
          lstsq X.S m.basis.n_states (fun s l' => m._discrtizefft X s k l')
            (fun s => dftn X.sp (fun j => (y.data s j : ℂ)) k) l) ∧
      (¬ (∀ a, k a = 0) →
        (∀ l, l < m.basis.n_states - 1 →
          fc.data k l =
            lstsq X.S (m.basis.n_states - 1)
              (fun s l' => m._discrtizefft X s k l')
              (fun s => dftn X.sp (fun j => (y.data s j : ℂ)) k) l) ∧
        ∀ l, m.basis.n_states - 1 ≤ l → fc.data k l = 0) := by
  unfold MKSRegressionModel.fit
  rw [if_neg hd, if_neg (by simp [hsh])]
  refine ⟨_, rfl, _, rfl, rfl, rfl, ?_, ?_⟩
  · intro h0 l hl
    simp only [if_pos (And.intro hk hl), if_pos h0]
  · intro h0
    constructor
    · intro l hl
      have hlL : l < m.basis.n_states := by omega
      simp only [if_pos (And.intro hk hlL), if_neg h0, if_pos hl]
    · intro l hl
      by_cases hlL : l < m.basis.n_states
      · simp only [if_pos (And.intro hk hlL), if_neg h0, if_neg (by omega : ¬ l < m.basis.n_states - 1)]
      · dsimp only
        rw [if_neg (fun hcon : inRange X.sp k ∧ l < m.basis.n_states => hlL hcon.2)]

/-- Witness for C1 at a concrete calibration pair and frequency. -/
theorem C1_fit_per_frequency_witness :
    (1 : ℕ) ≠ 0 ∧ ((cX.S, cX.sp) = (cX.S, cX.sp)) ∧
      inRange cX.sp (fun _ => 0) ∧
    (∃ m', cModelUnfit.fit cLstsq cX cX = .ok m' ∧ ∃ fc, m'.Fcoeff = some fc ∧
      fc.sp = cX.sp ∧ fc.L = cModelUnfit.basis.n_states ∧
      ((∀ a, (fun _ : Fin 1 => 0) a = 0) → ∀ l, l < cModelUnfit.basis.n_states →
        fc.data (fun _ => 0) l =
          cLstsq cX.S cModelUnfit.basis.n_states
            (fun s l' => cModelUnfit._discrtizefft cX s (fun _ => 0) l')
            (fun s => dftn cX.sp (fun j => (cX.data s j : ℂ)) (fun _ => 0)) l) ∧
      (¬ (∀ a, (fun _ : Fin 1 => 0) a = 0) →
        (∀ l, l < cModelUnfit.basis.n_states - 1 →
          fc.data (fun _ => 0) l =
            cLstsq cX.S (cModelUnfit.basis.n_states - 1)
              (fun s l' => cModelUnfit._discrtizefft cX s (fun _ => 0) l')
              (fun s => dftn cX.sp (fun j => (cX.data s j : ℂ)) (fun _ => 0)) l) ∧
        ∀ l, cModelUnfit.basis.n_states - 1 ≤ l →
          fc.data (fun _ => 0) l = 0)) :=
  ⟨by decide, rfl, by decide,
    C1_fit_per_frequency cLstsq cModelUnfit cX cX (by decide) rfl
      (fun _ => 0) (by decide)⟩

/-! ## C5: convolve shape mismatch behaviour -/

/-- C5 counterexample: `cX2`'s spatial/state shape does not match
`cKer3`'s, yet `Correlation.convolve` succeeds (it silently zero-pads the
input) instead of failing with a dimension error. -/
theorem C5_counterexample :
    cX2.shape ≠ cKer3.shape ∧ (cX2.sp, cX2.L) ≠ (cKer3.sp, cKer3.L) ∧
    exceptOk (Correlation.convolve cKer3 cX2) = true := by
  refine ⟨by decide, by decide, ?_⟩
  unfold Correlation.convolve
  rw [if_neg (by decide : ¬ (cX2.shape = cKer3.shape))]
  unfold Filter._zero_pad_and_transform
  rw [if_pos (by decide : ∀ a, cX2.sp a ≤ cKer3.sp a)]
  show exceptOk (Except.ok (Filter.padSpatial cX2 cKer3.sp) >>= _) = true
  rw [show ∀ (x : NDArray 1) (f : NDArray 1 → Except String (NDArray 1)),
      Except.ok x >>= f = f x from fun _ _ => rfl]
  dsimp only [Filter.padSpatial]
  rw [if_pos (by constructor <;> decide)]
  rfl

/-- C5 amended: `Filter.convolve` does fail immediately with the
descriptive dimension error on any spatial/state shape mismatch, but the
`Correlation.convolve` override does not: a full-shape mismatch whose
input fits inside the kernel spatially (same sample/state extents) is
silently zero-padded to the kernel's spatial shape and convolved. -/
theorem C5_amended (ker X : NDArray d) :
    ((X.sp, X.L) ≠ (ker.sp, ker.L) →
      Filter.convolve ker X = .error "Dimensions of X are incorrect.") ∧
    (X.shape ≠ ker.shape → (∀ a, X.sp a ≤ ker.sp a) →
      X.S = ker.S → X.L = ker.L →
      Correlation.convolve ker X = .ok ⟨ker.S, ker.sp, ker.L, fun s j l =>
        idftn ker.sp (fun k =>
          dftn ker.sp (fun j' =>
            (Filter.padSpatial X ker.sp).data (Filter.bcast ker.S s) j'
              (Filter.bcast ker.L l)) k *
            ker.data (Filter.bcast ker.S s) k (Filter.bcast ker.L l))
          (fftshiftIdx ker.sp j)⟩) := by
  constructor
  · intro hne
    unfold Filter.convolve
    rw [if_pos hne]
  · intro hne hfit hS hL
    unfold Correlation.convolve
    rw [if_neg hne]
    unfold Filter._zero_pad_and_transform
    rw [if_pos hfit]
    show (Except.ok (Filter.padSpatial X ker.sp) >>= _) = _
    rw [show ∀ (x : NDArray d) (f : NDArray d → Except String (NDArray d)),
        Except.ok x >>= f = f x from fun _ _ => rfl]
    dsimp only [Filter.padSpatial]
    rw [if_pos (And.intro (Or.inl hS) (Or.inl hL))]
    show Except.ok _ = Except.ok _
    rw [hS, hL, Nat.max_self, Nat.max_self]

/-- Witness for C5's amended theorem at the concrete mismatched pair. -/
theorem C5_amended_witness :
    ((cX2.sp, cX2.L) ≠ (cKer3.sp, cKer3.L) ∧ cX2.shape ≠ cKer3.shape ∧
      (∀ a, cX2.sp a ≤ cKer3.sp a) ∧ cX2.S = cKer3.S ∧ cX2.L = cKer3.L) ∧
    Filter.convolve cKer3 cX2 = .error "Dimensions of X are incorrect." ∧
    Correlation.convolve cKer3 cX2 = .ok ⟨cKer3.S, cKer3.sp, cKer3.L, fun s j l =>
      idftn cKer3.sp (fun k =>
        dftn cKer3.sp (fun j' =>
          (Filter.padSpatial cX2 cKer3.sp).data (Filter.bcast cKer3.S s) j'
            (Filter.bcast cKer3.L l)) k *
          cKer3.data (Filter.bcast cKer3.S s) k (Filter.bcast cKer3.L l))
        (fftshiftIdx cKer3.sp j)⟩ :=
  ⟨⟨by decide, by decide, by decide, rfl, rfl⟩,
    (C5_amended cKer3 cX2).1 (by decide),
    (C5_amended cKer3 cX2).2 (by decide) (by decide) rfl rfl⟩

/-! ## C10: Correlation.convolve on shape-matching input -/

/-- C10: a `Correlation` built from a real-space kernel stores the
conjugated kernel spectrum, and convolving a full-shape-matching input
returns the spatially `fftshift`ed inverse DFT of the product of the
input's spectrum with that conjugated spectrum, one channel per local
state — no sum over the trailing state axis and no real part is taken. -/
theorem C10_correlation_convolve (kernel X : NDArray d)
    (h : X.shape = kernel.shape) :
    ∃ C, Correlation.init kernel none = .ok C ∧
      Correlation.convolve C X = .ok ⟨X.S, X.sp, X.L, fun s j l =>
        idftn X.sp (fun k =>
          dftn X.sp (fun j' =>
            X.data (Filter.bcast X.S s) j' (Filter.bcast X.L l)) k *
            starRingEnd ℂ (dftn kernel.sp (fun j' =>
              kernel.data (Filter.bcast kernel.S s) j'
                (Filter.bcast kernel.L l)) k))
          (fftshiftIdx X.sp j)⟩ := by
  obtain ⟨hS, hsp, hL⟩ : X.S = kernel.S ∧ X.sp = kernel.sp ∧ X.L = kernel.L := by
    unfold NDArray.shape at h
    exact ⟨congrArg Prod.fst h, congrArg (fun q => q.2.1) h,
      congrArg (fun q => q.2.2) h⟩
  refine ⟨_, rfl, ?_⟩
  unfold Correlation.convolve
  dsimp only [NDArray.shape, basis_fftn]
  rw [if_pos (show (X.S, X.sp, X.L) = (kernel.S, kernel.sp, kernel.L) from by
    rw [hS, hsp, hL])]
  show (Except.ok X >>= _) = _
  rw [show ∀ (x : NDArray d) (f : NDArray d → Except String (NDArray d)),
      Except.ok x >>= f = f x from fun _ _ => rfl]
  rw [if_pos (And.intro (Or.inl hS) (Or.inl hL))]
  show Except.ok _ = Except.ok _
  simp only [Except.ok.injEq, NDArray.mk.injEq, and_true, true_and]
  constructor <;> omega

/-! ## Resize round trips (shared lemmas for the padding claims) -/

/-- `Filter.resize` on a grow-only target succeeds, and reading the
resized kernel back into real space (`_frequency_2_real`) gives exactly
the zero-padded original real-space kernel, at every in-range index. -/
theorem resize_readback (Fkernel : NDArray d) (size : SpIdx d)
    (hg : ∀ a, Fkernel.sp a ≤ size a) :
    Filter.resize Fkernel size =
      .ok (Filter._real_2_frequency
        (Filter.padSpatial (Filter._frequency_2_real Fkernel) size)) ∧
    ∀ s j l, inRange size j →
      (Filter._frequency_2_real
          (Filter._real_2_frequency
            (Filter.padSpatial (Filter._frequency_2_real Fkernel) size))).data s j l =
        (Filter.padSpatial (Filter._frequency_2_real Fkernel) size).data s j l := by
  constructor
  · unfold Filter.resize
    rw [if_neg (not_not_intro hg)]
    show (Filter._zero_pad_and_transform (Filter._frequency_2_real Fkernel) size >>=
      fun kernel_pad => pure (Filter._real_2_frequency kernel_pad)) = _
    unfold Filter._zero_pad_and_transform
    rw [if_pos (show ∀ a, (Filter._frequency_2_real Fkernel).sp a ≤ size a from hg)]
    rfl
  · intro s j l hj
    show realIfClose (idftn size (fun k => dftn size (fun j'' =>
        (Filter.padSpatial (Filter._frequency_2_real Fkernel) size).data s
          (ifftshiftIdx size j'') l) k) (fftshiftIdx size j)) = _
    rw [realIfClose_eq,
      idftn_dftn size _ (fftshiftIdx size j) (inRange_fftshiftIdx hj),
      ifftshiftIdx_fftshiftIdx hj]

/-- `MKSRegressionModel.resize_coeff` on a grow-only target succeeds, and
the `coeff` property of the resized model is the zero-padded `coeff` of
the original model, at every in-range index. -/
theorem resize_coeff_readback (m : MKSRegressionModel d) (fc : FittedCoeff d)
    (hfc : m.Fcoeff = some fc) (shape : SpIdx d)
    (hg : ∀ a, fc.sp a ≤ shape a) :
    ∃ m' c' c, m.resize_coeff shape = .ok m' ∧ m'.coeff = .ok c' ∧
      m.coeff = .ok c ∧
      ∀ j l, inRange shape j →
        c' j l =
          if ∀ a, Filter.padUp fc.sp shape a ≤ j a ∧
                  j a < Filter.padUp fc.sp shape a + fc.sp a
          then c (fun a => j a - Filter.padUp fc.sp shape a) l
          else 0 := by
  unfold MKSRegressionModel.resize_coeff MKSRegressionModel.coeff
  rw [hfc]
  dsimp only
  rw [if_neg (not_not_intro hg)]
  refine ⟨_, _, _, rfl, rfl, rfl, ?_⟩
  intro j l hj
  show realIfClose (idftn shape (fun k => dftn shape _ k) (fftshiftIdx shape j)) = _
  rw [realIfClose_eq,
    idftn_dftn shape _ (fftshiftIdx shape j) (inRange_fftshiftIdx hj),
    ifftshiftIdx_fftshiftIdx hj]

/-! ## C3: resize-then-read-back round trip -/

/-- C3: resizing a kernel (`Filter.resize`) or a fitted coefficient array
(`resize_coeff`) to a spatially larger target and reading back the
origin-centered real-space array reproduces the original array's values on
its (translated) region and zeros everywhere else.  The placement offset
on each axis is `padUp = padsize - padsize // 2`. -/
theorem C3_resize_then_read_back (Fkernel : NDArray d) (size : SpIdx d)
    (hg : ∀ a, Fkernel.sp a ≤ size a)
    (m : MKSRegressionModel d) (fc : FittedCoeff d) (hfc : m.Fcoeff = some fc)
    (shape : SpIdx d) (hg2 : ∀ a, fc.sp a ≤ shape a) :
    (∃ k', Filter.resize Fkernel size = .ok k' ∧
      ∀ s j l, inRange size j →
        (Filter._frequency_2_real k').data s j l =
          if ∀ a, Filter.padUp Fkernel.sp size a ≤ j a ∧
                  j a < Filter.padUp Fkernel.sp size a + Fkernel.sp a
          then (Filter._frequency_2_real Fkernel).data s
                 (fun a => j a - Filter.padUp Fkernel.sp size a) l
          else 0) ∧
    (∃ m' c' c, m.resize_coeff shape = .ok m' ∧ m'.coeff = .ok c' ∧
      m.coeff = .ok c ∧
      ∀ j l, inRange shape j →
        c' j l =
          if ∀ a, Filter.padUp fc.sp shape a ≤ j a ∧
                  j a < Filter.padUp fc.sp shape a + fc.sp a
          then c (fun a => j a - Filter.padUp fc.sp shape a) l
          else 0) := by
  constructor
  · obtain ⟨hok, hval⟩ := resize_readback Fkernel size hg
    exact ⟨_, hok, fun s j l hj => hval s j l hj⟩
  · exact resize_coeff_readback m fc hfc shape hg2

/-- A concrete `(1, 1, 1)`-shaped kernel of ones. -/
def cKer1 : NDArray 1 := ⟨1, fun _ => 1, 1, fun _ _ _ => 1⟩

/-- A concrete fitted model with a `(1, 1)`-shaped coefficient array. -/
noncomputable def cModelFit : MKSRegressionModel 1 :=
  ⟨cBasis, some ⟨fun _ => 1, 1, fun _ _ => 1⟩⟩

/-- Witness for C3 at concrete grow-only resizes. -/
theorem C3_resize_then_read_back_witness :
    (∀ a, cKer1.sp a ≤ (fun _ : Fin 1 => 2) a) ∧
    cModelFit.Fcoeff = some ⟨fun _ => 1, 1, fun _ _ => 1⟩ ∧
    (∀ a, (1 : ℕ) ≤ (fun _ : Fin 1 => 2) a) ∧
    ((∃ k', Filter.resize cKer1 (fun _ => 2) = .ok k' ∧
      ∀ s j l, inRange (fun _ => 2) j →
        (Filter._frequency_2_real k').data s j l =
          if ∀ a, Filter.padUp cKer1.sp (fun _ => 2) a ≤ j a ∧
                  j a < Filter.padUp cKer1.sp (fun _ => 2) a + cKer1.sp a
          then (Filter._frequency_2_real cKer1).data s
                 (fun a => j a - Filter.padUp cKer1.sp (fun _ => 2) a) l
          else 0) ∧
    (∃ m' c' c, cModelFit.resize_coeff (fun _ => 2) = .ok m' ∧
      m'.coeff = .ok c' ∧ cModelFit.coeff = .ok c ∧
      ∀ j l, inRange (fun _ => 2) j →
        c' j l =
          if ∀ a, Filter.padUp (fun _ => 1) (fun _ => 2) a ≤ j a ∧
                  j a < Filter.padUp (fun _ => 1) (fun _ => 2) a + 1
          then c (fun a => j a - Filter.padUp (fun _ => 1) (fun _ => 2) a) l
          else 0)) :=
  ⟨by decide, rfl, by decide,
    C3_resize_then_read_back cKer1 (fun _ => 2) (by decide)
      cModelFit ⟨fun _ => 1, 1, fun _ _ => 1⟩ rfl (fun _ => 2) (by decide)⟩

/-! ## C4: placement of the real-space zero padding -/

/-- The real-space value of the concrete one-point kernel `cKer1` is `1`. -/
theorem cKer1_readback_value :
    (Filter._frequency_2_real cKer1).data 0 (fun _ => 0) 0 = 1 := by
  show realIfClose (idftn cKer1.sp (fun k => cKer1.data 0 k 0)
      (fftshiftIdx cKer1.sp (fun _ => 0))) = 1
  rw [realIfClose_eq]
  unfold idftn cKer1
  rw [show spFinset (fun _ : Fin 1 => 1) = {fun _ => 0} from by decide,
    Finset.sum_singleton]
  simp [wexpInv]

/-- C4 counterexample: resizing the `(1,1,1)` kernel of ones to spatial
extent `2` (total pad amount `1`, odd) places the original value at index
`1` and the zero at index `0`: the extra padding element went *before*
the data, not after it. -/
theorem C4_counterexample :
    ∃ k', Filter.resize cKer1 (fun _ => 2) = .ok k' ∧
      (Filter._frequency_2_real k').data 0 (fun _ => 0) 0 = 0 ∧
      (Filter._frequency_2_real k').data 0 (fun _ => 1) 0 = 1 := by
  obtain ⟨hok, hval⟩ := resize_readback cKer1 (fun _ => 2) (by decide)
  refine ⟨_, hok, ?_, ?_⟩
  · rw [hval 0 (fun _ => 0) 0 (by decide)]
    dsimp only [Filter.padSpatial]
    rw [if_neg (by decide)]
  · rw [hval 0 (fun _ => 1) 0 (by decide)]
    dsimp only [Filter.padSpatial]
    rw [if_pos (by decide)]
    have h0 : (Filter._frequency_2_real cKer1).data 0 (fun _ => 0) 0 = 1 :=
      cKer1_readback_value
    convert h0 using 2
    decide

/-- C4 amended: the zero padding applied in real space by the resize
operations is symmetric within one voxel per axis, but on every axis with
an odd total pad amount the extra padding element is placed on the
*before* side (`padup = padsize - padsize // 2` zeros before the data,
`paddown = padsize // 2` after it). -/
theorem C4_amended (x : NDArray d) (size : SpIdx d) (h : ∀ a, x.sp a ≤ size a) :
    (∀ a, Filter.padUp x.sp size a + Filter.padDown x.sp size a = size a - x.sp a ∧
      Filter.padDown x.sp size a ≤ Filter.padUp x.sp size a ∧
      Filter.padUp x.sp size a ≤ Filter.padDown x.sp size a + 1 ∧
      (Odd (size a - x.sp a) →
        Filter.padUp x.sp size a = Filter.padDown x.sp size a + 1) ∧
      (Even (size a - x.sp a) →
        Filter.padUp x.sp size a = Filter.padDown x.sp size a)) ∧
    Filter._zero_pad_and_transform x size = .ok (Filter.padSpatial x size) ∧
    ∀ s j l,
      (Filter.padSpatial x size).data s j l =
        if ∀ a, Filter.padUp x.sp size a ≤ j a ∧
                j a < Filter.padUp x.sp size a + x.sp a
        then x.data s (fun a => j a - Filter.padUp x.sp size a) l
        else 0 := by
  refine ⟨?_, ?_, fun s j l => rfl⟩
  · intro a
    unfold Filter.padUp Filter.padDown
    refine ⟨by omega, by omega, by omega, ?_, ?_⟩
    · rintro ⟨m, hm⟩
      omega
    · rintro ⟨m, hm⟩
      omega
  · unfold Filter._zero_pad_and_transform
    rw [if_pos h]

/-- Witness for C4's amended theorem at the concrete odd-pad resize. -/
theorem C4_amended_witness :
    (∀ a, cKer1.sp a ≤ (fun _ : Fin 1 => 2) a) ∧
    ((∀ a, Filter.padUp cKer1.sp (fun _ => 2) a +
          Filter.padDown cKer1.sp (fun _ => 2) a =
          (fun _ : Fin 1 => 2) a - cKer1.sp a ∧
      Filter.padDown cKer1.sp (fun _ => 2) a ≤ Filter.padUp cKer1.sp (fun _ => 2) a ∧
      Filter.padUp cKer1.sp (fun _ => 2) a ≤ Filter.padDown cKer1.sp (fun _ => 2) a + 1 ∧
      (Odd ((fun _ : Fin 1 => 2) a - cKer1.sp a) →
        Filter.padUp cKer1.sp (fun _ => 2) a =
          Filter.padDown cKer1.sp (fun _ => 2) a + 1) ∧
      (Even ((fun _ : Fin 1 => 2) a - cKer1.sp a) →
        Filter.padUp cKer1.sp (fun _ => 2) a =
          Filter.padDown cKer1.sp (fun _ => 2) a)) ∧
    Filter._zero_pad_and_transform cKer1 (fun _ => 2) =
      .ok (Filter.padSpatial cKer1 (fun _ => 2)) ∧
    ∀ s j l,
      (Filter.padSpatial cKer1 (fun _ => 2)).data s j l =
        if ∀ a, Filter.padUp cKer1.sp (fun _ => 2) a ≤ j a ∧
                j a < Filter.padUp cKer1.sp (fun _ => 2) a + cKer1.sp a
        then cKer1.data s (fun a => j a - Filter.padUp cKer1.sp (fun _ => 2) a) l
        else 0) :=
  ⟨by decide, C4_amended cKer1 (fun _ => 2) (by decide)⟩

/-! ## C7: the tent-function discretization `tools.bin` -/

/-- The node spacing of `np.linspace(0, 1, n_bins)` is `1 / (n_bins - 1)`. -/
theorem linspace01_spacing (n_bins : ℕ) :
    tools.linspace01 n_bins 1 - tools.linspace01 n_bins 0 =
      1 / ((n_bins : ℝ) - 1) := by
  unfold tools.linspace01
  push_cast
  ring

/-- Rescaled form of a `tools.bin` entry: measuring the distance to node
`i` in units of the node spacing. -/
theorem bin_rescale (arr : ℕ → ℝ) (n_bins : ℕ) (hn : 2 ≤ n_bins) (t i : ℕ) :
    tools.bin arr n_bins t i =
      max (1 - |arr t * ((n_bins : ℝ) - 1) - i|) 0 := by
  have hpos : (0:ℝ) < (n_bins : ℝ) - 1 := by
    have h2 : (2:ℝ) ≤ (n_bins : ℝ) := by exact_mod_cast hn
    linarith
  have hne : ((n_bins : ℝ) - 1) ≠ 0 := ne_of_gt hpos
  unfold tools.bin
  rw [linspace01_spacing, div_div_eq_mul_div, div_one]
  congr 2
  rw [show |arr t - tools.linspace01 n_bins i| * ((n_bins:ℝ) - 1) =
      |arr t - tools.linspace01 n_bins i| * |(n_bins:ℝ) - 1| from by
    rw [abs_of_pos hpos]]
  rw [← abs_mul]
  congr 1
  unfold tools.linspace01
  field_simp

/-- C7: for entries in `[0, 1]` and `n_bins ≥ 2`, each row of
`tools.bin` is the tent function `max(1 - |value - node_i| / spacing, 0)`
over the `n_bins` evenly spaced nodes, sums to exactly `1`, and vanishes
at every node farther than one spacing from the value (i.e. at every node
other than the two nearest). -/
theorem C7_bin_row (arr : ℕ → ℝ) (n_bins : ℕ) (t : ℕ) (hn : 2 ≤ n_bins)
    (h0 : 0 ≤ arr t) (h1 : arr t ≤ 1) :
    (∀ i, tools.bin arr n_bins t i =
      max (1 - |arr t - tools.linspace01 n_bins i| /
        (tools.linspace01 n_bins 1 - tools.linspace01 n_bins 0)) 0) ∧
    (∑ i ∈ Finset.range n_bins, tools.bin arr n_bins t i) = 1 ∧
    (∀ i, tools.bin arr n_bins t i ≠ 0 →
      |arr t - tools.linspace01 n_bins i| <
        tools.linspace01 n_bins 1 - tools.linspace01 n_bins 0) := by
  have hpos : (0:ℝ) < (n_bins : ℝ) - 1 := by
    have h2 : (2:ℝ) ≤ (n_bins : ℝ) := by exact_mod_cast hn
    linarith
  set u : ℝ := arr t * ((n_bins : ℝ) - 1) with hu
  have hu0 : 0 ≤ u := mul_nonneg h0 (le_of_lt hpos)
  have hun : u ≤ (n_bins : ℝ) - 1 := by
    rw [hu]
    nlinarith
  set j : ℕ := min (Nat.floor u) (n_bins - 2) with hj
  have hjle : (j : ℝ) ≤ u := by
    rcases le_or_lt (Nat.floor u) (n_bins - 2) with hc | hc
    · rw [hj, min_eq_left hc]
      exact Nat.floor_le hu0
    · rw [hj, min_eq_right (le_of_lt hc)]
      have : (n_bins - 2 : ℕ) ≤ Nat.floor u := le_of_lt hc
      have h2 : ((n_bins - 2 : ℕ) : ℝ) ≤ (Nat.floor u : ℝ) := by exact_mod_cast this
      exact le_trans h2 (Nat.floor_le hu0)
  have hule : u ≤ (j : ℝ) + 1 := by
    rcases le_or_lt (Nat.floor u) (n_bins - 2) with hc | hc
    · rw [hj, min_eq_left hc]
      exact le_of_lt (Nat.lt_floor_add_one u)
    · rw [hj, min_eq_right (le_of_lt hc)]
      have hcast : ((n_bins - 2 : ℕ) : ℝ) + 1 = (n_bins : ℝ) - 1 := by
        have : (2 : ℕ) ≤ n_bins := hn
        push_cast [this]
        ring
      rw [hcast]
      exact hun
  have hjn : j + 1 < n_bins := by
    have : j ≤ n_bins - 2 := by rw [hj]; exact min_le_right _ _
    omega
  refine ⟨fun i => rfl, ?_, ?_⟩
  · rw [Finset.sum_congr rfl (fun i _ => bin_rescale arr n_bins hn t i)]
    rw [← Finset.sum_subset
      (show ({j, j + 1} : Finset ℕ) ⊆ Finset.range n_bins from by
        intro i hi
        rcases Finset.mem_insert.mp hi with h | h
        · rw [Finset.mem_range, h]; omega
        · rw [Finset.mem_range, Finset.mem_singleton.mp h]; exact hjn)
      (fun i hi hni => ?_)]
    · rw [Finset.sum_pair (by omega : j ≠ j + 1)]
      have habs1 : |u - (j : ℝ)| = u - j := abs_of_nonneg (by linarith)
      have habs2 : |u - ((j + 1 : ℕ) : ℝ)| = (j : ℝ) + 1 - u := by
        rw [abs_sub_comm]
        push_cast
        exact abs_of_nonneg (by linarith)
      rw [habs1, habs2]
      rw [max_eq_left (by linarith : (0:ℝ) ≤ 1 - (u - j))]
      rw [max_eq_left (by linarith : (0:ℝ) ≤ 1 - ((j:ℝ) + 1 - u))]
      ring
    · have hij : i ≠ j ∧ i ≠ j + 1 := by
        constructor <;> intro hcon <;> rw [hcon] at hni <;> simp at hni
      have hdist : (1 : ℝ) ≤ |u - i| := by
        rcases lt_or_gt_of_ne hij.1 with hlt | hgt
        · have : (i : ℝ) + 1 ≤ j := by exact_mod_cast hlt
          have h1 : 1 ≤ u - i := by linarith
          calc (1:ℝ) ≤ u - i := h1
            _ ≤ |u - i| := le_abs_self _
        · have hi2 : j + 2 ≤ i := by omega
          have : (j : ℝ) + 2 ≤ i := by exact_mod_cast hi2
          have h1 : 1 ≤ (i : ℝ) - u := by linarith
          calc (1:ℝ) ≤ (i:ℝ) - u := h1
            _ ≤ |(i:ℝ) - u| := le_abs_self _
            _ = |u - i| := abs_sub_comm _ _
      exact max_eq_right (by linarith)
  · intro i hne0
    rw [bin_rescale arr n_bins hn t i] at hne0
    have hmax : 0 < 1 - |u - i| := by
      by_contra hcon
      push_neg at hcon
      exact hne0 (max_eq_right hcon)
    have hlt : |u - (i : ℝ)| < 1 := by linarith
    rw [linspace01_spacing]
    rw [lt_div_iff₀ hpos]
    have : |arr t - tools.linspace01 n_bins i| * ((n_bins:ℝ) - 1) = |u - i| := by
      rw [show |arr t - tools.linspace01 n_bins i| * ((n_bins:ℝ) - 1) =
          |arr t - tools.linspace01 n_bins i| * |(n_bins:ℝ) - 1| from by
        rw [abs_of_pos hpos]]
      rw [← abs_mul]
      congr 1
      unfold tools.linspace01
      rw [hu]
      field_simp
    rw [this]
    exact hlt

/-- Witness for C7 at a concrete array and bin count. -/
theorem C7_bin_row_witness :
    2 ≤ 4 ∧ (0:ℝ) ≤ (fun _ : ℕ => (1:ℝ)/2) 0 ∧ (fun _ : ℕ => (1:ℝ)/2) 0 ≤ 1 ∧
    ((∀ i, tools.bin (fun _ => (1:ℝ)/2) 4 0 i =
      max (1 - |(fun _ : ℕ => (1:ℝ)/2) 0 - tools.linspace01 4 i| /
        (tools.linspace01 4 1 - tools.linspace01 4 0)) 0) ∧
    (∑ i ∈ Finset.range 4, tools.bin (fun _ => (1:ℝ)/2) 4 0 i) = 1 ∧
    (∀ i, tools.bin (fun _ => (1:ℝ)/2) 4 0 i ≠ 0 →
      |(fun _ : ℕ => (1:ℝ)/2) 0 - tools.linspace01 4 i| <
        tools.linspace01 4 1 - tools.linspace01 4 0)) :=
  ⟨by norm_num, by norm_num, by norm_num,
    C7_bin_row (fun _ => (1:ℝ)/2) 4 0 (by norm_num) (by norm_num) (by norm_num)⟩

/-! ## C2: noiseless recoverability of `fit` + `predict` -/

/-- The forward DFT only reads in-range entries. -/
theorem dftn_congr {n : SpIdx d} {x x' : SpIdx d → ℂ}
    (h : ∀ j, inRange n j → x j = x' j) (k : SpIdx d) :
    dftn n x k = dftn n x' k := by
  unfold dftn
  exact Finset.sum_congr rfl fun j hj => by rw [h j (mem_spFinset.mp hj)]

/-- The inverse DFT only reads in-range entries. -/
theorem idftn_congr {n : SpIdx d} {x x' : SpIdx d → ℂ}
    (h : ∀ k, inRange n k → x k = x' k) (j : SpIdx d) :
    idftn n x j = idftn n x' j := by
  unfold idftn
  congr 1
  exact Finset.sum_congr rfl fun k hk => by rw [h k (mem_spFinset.mp hk)]

/-- A finite sum of forward DFTs is the DFT of the summed array. -/
theorem sum_dftn (n : SpIdx d) (L : ℕ) (x : ℕ → SpIdx d → ℂ) (k : SpIdx d) :
    ∑ l ∈ Finset.range L, dftn n (x l) k =
      dftn n (fun j => ∑ l ∈ Finset.range L, x l j) k := by
  unfold dftn
  rw [Finset.sum_comm]
  exact Finset.sum_congr rfl fun j _ => (Finset.sum_mul _ _ _).symm

/-- Successful `fit` in closed form (the `np.ndindex` loop written as a
function of the frequency and state index). -/
theorem fit_ok (lstsq : Lstsq) (m : MKSRegressionModel d) (X y : RealArr d)
    (hd : d ≠ 0) (hsh : (y.S, y.sp) = (X.S, X.sp)) :
    m.fit lstsq X y = .ok { m with Fcoeff := some ⟨X.sp, m.basis.n_states,
      fun k l =>
        if inRange X.sp k ∧ l < m.basis.n_states then
          (if ∀ a, k a = 0 then
            lstsq X.S m.basis.n_states (fun s l' => m._discrtizefft X s k l')
              (fun s => dftn X.sp (fun j => (y.data s j : ℂ)) k) l
          else if l < m.basis.n_states - 1 then
            lstsq X.S (m.basis.n_states - 1)
              (fun s l' => m._discrtizefft X s k l')
              (fun s => dftn X.sp (fun j => (y.data s j : ℂ)) k) l
          else 0)
        else 0⟩ } := by
  unfold MKSRegressionModel.fit
  rw [if_neg hd, if_neg (by simp [hsh])]

/-- C2: when `y` is generated by frequency-space multiplication of some
coefficient array with the discretized `X` (a linear combination of
spatial shifts of `X`'s discretized states), and the basis satisfies the
partition-of-unity invariant, `fit(X, y)` followed by `predict(X)`
reproduces `y` exactly at every sample and in-range voxel.  The solver
hypothesis states the defining property of `np.linalg.lstsq` that is
needed: on a consistent system it returns an exact solution. -/
theorem C2_noiseless_recoverability (lstsq : Lstsq)
    (hlstsq : ∀ (S mm : ℕ) (A : ℕ → ℕ → ℂ) (b : ℕ → ℂ),
      (∃ x : ℕ → ℂ, ∀ s, s < S → ∑ l ∈ Finset.range mm, A s l * x l = b s) →
      ∀ s, s < S → ∑ l ∈ Finset.range mm, A s l * lstsq S mm A b l = b s)
    (m : MKSRegressionModel d) (X y : RealArr d)
    (hd : d ≠ 0) (hsh : (y.S, y.sp) = (X.S, X.sp))
    (hL : 1 ≤ m.basis.n_states)
    (hPU : ∀ s j, inRange X.sp j →
      ∑ l ∈ Finset.range m.basis.n_states, m.basis.discretize X.data s j l = 1)
    (hgen : ∃ C : SpIdx d → ℕ → ℂ, ∀ s, s < X.S → ∀ p, inRange X.sp p →
      (y.data s p : ℂ) =
        idftn X.sp (fun k => ∑ l ∈ Finset.range m.basis.n_states,
          C k l * m._discrtizefft X s k l) p) :
    ∃ m', m.fit lstsq X y = .ok m' ∧
      ∃ p, (m'.predict X).2 = .ok p ∧
        ∀ s, s < X.S → ∀ jj, inRange X.sp jj →
          p.data s jj = y.data s jj := by
  obtain ⟨C, hC⟩ := hgen
  set L := m.basis.n_states with hLdef
  set FX : ℕ → SpIdx d → ℕ → ℂ := m._discrtizefft X with hFX
  set Fy : ℕ → SpIdx d → ℂ :=
    fun s k => dftn X.sp (fun j => (y.data s j : ℂ)) k with hFydef
  -- the response spectrum is the coefficient combination of the input spectrum
  have hFy : ∀ s, s < X.S → ∀ k, inRange X.sp k →
      Fy s k = ∑ l ∈ Finset.range L, C k l * FX s k l := by
    intro s hs k hk
    have h1 : Fy s k = dftn X.sp (idftn X.sp (fun k' =>
        ∑ l ∈ Finset.range L, C k' l * FX s k' l)) k :=
      dftn_congr (fun p hp => hC s hs p hp) k
    rw [h1, dftn_idftn _ _ k hk]
  -- partition of unity in frequency space: state channels sum to zero at
  -- nonzero frequencies
  have hsum0 : ∀ s k, inRange X.sp k → ¬ (∀ a, k a = 0) →
      ∑ l ∈ Finset.range L, FX s k l = 0 := by
    intro s k hk hk0
    have h1 : ∑ l ∈ Finset.range L, FX s k l =
        dftn X.sp (fun j => ∑ l ∈ Finset.range L,
          ((m.basis.discretize X.data s j l : ℝ) : ℂ)) k :=
      sum_dftn X.sp L _ k
    rw [h1]
    have h2 : dftn X.sp (fun j => ∑ l ∈ Finset.range L,
        ((m.basis.discretize X.data s j l : ℝ) : ℂ)) k =
        dftn X.sp (fun _ => 1) k := by
      refine dftn_congr (fun j hj => ?_) k
      rw [← Complex.ofReal_sum, hPU s j hj, Complex.ofReal_one]
    rw [h2]
    refine dftn_one_eq_zero X.sp k hk ?_
    intro hcon
    exact hk0 fun a => congrFun hcon a
  -- the fitted spectrum reproduces the response spectrum
  have hmain : ∀ s, s < X.S → ∀ k, inRange X.sp k →
      (∑ l ∈ Finset.range L, FX s k l *
        (if inRange X.sp k ∧ l < L then
          (if ∀ a, k a = 0 then
            lstsq X.S L (fun s' l' => FX s' k l') (fun s' => Fy s' k) l
          else if l < L - 1 then
            lstsq X.S (L - 1) (fun s' l' => FX s' k l') (fun s' => Fy s' k) l
          else 0)
        else 0)) = Fy s k := by
    intro s hs k hk
    by_cases hk0 : ∀ a, k a = 0
    · have hstep : ∀ l ∈ Finset.range L,
          FX s k l * (if inRange X.sp k ∧ l < L then
            (if ∀ a, k a = 0 then
              lstsq X.S L (fun s' l' => FX s' k l') (fun s' => Fy s' k) l
            else if l < L - 1 then
              lstsq X.S (L - 1) (fun s' l' => FX s' k l') (fun s' => Fy s' k) l
            else 0) else 0) =
          FX s k l * lstsq X.S L (fun s' l' => FX s' k l') (fun s' => Fy s' k) l := by
        intro l hl
        rw [if_pos (And.intro hk (Finset.mem_range.mp hl)), if_pos hk0]
      rw [Finset.sum_congr rfl hstep]
      refine hlstsq X.S L (fun s' l' => FX s' k l') (fun s' => Fy s' k)
        ⟨fun l => C k l, fun s' hs' => ?_⟩ s hs
      show ∑ l ∈ Finset.range L, FX s' k l * C k l = Fy s' k
      rw [hFy s' hs' k hk]
      exact Finset.sum_congr rfl fun l _ => mul_comm _ _
    · have hstep : ∀ l ∈ Finset.range L,
          FX s k l * (if inRange X.sp k ∧ l < L then
            (if ∀ a, k a = 0 then
              lstsq X.S L (fun s' l' => FX s' k l') (fun s' => Fy s' k) l
            else if l < L - 1 then
              lstsq X.S (L - 1) (fun s' l' => FX s' k l') (fun s' => Fy s' k) l
            else 0) else 0) =
          FX s k l * (if l < L - 1 then
            lstsq X.S (L - 1) (fun s' l' => FX s' k l') (fun s' => Fy s' k) l
          else 0) := by
        intro l hl
        rw [if_pos (And.intro hk (Finset.mem_range.mp hl)), if_neg hk0]
      rw [Finset.sum_congr rfl hstep]
      have hL1 : L - 1 + 1 = L := Nat.succ_pred_eq_of_pos hL
      have hsplit : ∀ (f : ℕ → ℂ), (∑ l ∈ Finset.range L, f l) =
          (∑ l ∈ Finset.range (L - 1), f l) + f (L - 1) := by
        intro f
        conv_lhs => rw [← hL1]
        exact Finset.sum_range_succ f (L - 1)
      rw [hsplit, if_neg (by omega : ¬ L - 1 < L - 1), mul_zero, add_zero]
      have hstep2 : ∀ l ∈ Finset.range (L - 1),
          FX s k l * (if l < L - 1 then
            lstsq X.S (L - 1) (fun s' l' => FX s' k l') (fun s' => Fy s' k) l
          else 0) =
          FX s k l * lstsq X.S (L - 1) (fun s' l' => FX s' k l')
            (fun s' => Fy s' k) l := by
        intro l hl
        rw [if_pos (Finset.mem_range.mp hl)]
      rw [Finset.sum_congr rfl hstep2]
      refine hlstsq X.S (L - 1) (fun s' l' => FX s' k l') (fun s' => Fy s' k)
        ⟨fun l => C k l - C k (L - 1), fun s' hs' => ?_⟩ s hs
      show ∑ l ∈ Finset.range (L - 1),
          FX s' k l * (C k l - C k (L - 1)) = Fy s' k
      have hexp : ∀ l ∈ Finset.range (L - 1),
          FX s' k l * (C k l - C k (L - 1)) =
            FX s' k l * C k l - FX s' k l * C k (L - 1) :=
        fun l _ => mul_sub _ _ _
      rw [Finset.sum_congr rfl hexp, Finset.sum_sub_distrib, ← Finset.sum_mul]
      have hz : ∑ l ∈ Finset.range (L - 1), FX s' k l =
          - FX s' k (L - 1) := by
        have h0 := hsum0 s' k hk hk0
        rw [hsplit] at h0
        linear_combination h0
      rw [hz, hFy s' hs' k hk, hsplit]
      have hcomm : ∀ l ∈ Finset.range (L - 1),
          C k l * FX s' k l = FX s' k l * C k l := fun l _ => mul_comm _ _
      rw [Finset.sum_congr rfl hcomm]
      ring
  -- assemble: fit succeeds, predict succeeds, and inverts to y
  rw [fit_ok lstsq m X y hd hsh]
  refine ⟨_, rfl, ?_⟩
  unfold MKSRegressionModel.predict
  dsimp only
  rw [if_neg (not_not_intro rfl)]
  refine ⟨_, rfl, ?_⟩
  intro s hs jj hjj
  dsimp only
  have hfinal : idftn X.sp (fun k => ∑ l ∈ Finset.range L,
      m._discrtizefft X s k l *
        (if inRange X.sp k ∧ l < L then
          (if ∀ a, k a = 0 then
            lstsq X.S L (fun s' l' => m._discrtizefft X s' k l')
              (fun s' => dftn X.sp (fun j => (y.data s' j : ℂ)) k) l
          else if l < L - 1 then
            lstsq X.S (L - 1) (fun s' l' => m._discrtizefft X s' k l')
              (fun s' => dftn X.sp (fun j => (y.data s' j : ℂ)) k) l
          else 0)
        else 0)) jj = (y.data s jj : ℂ) := by
    have h1 := @idftn_congr d X.sp
      (fun k => ∑ l ∈ Finset.range L, m._discrtizefft X s k l *
        (if inRange X.sp k ∧ l < L then
          (if ∀ a, k a = 0 then
            lstsq X.S L (fun s' l' => m._discrtizefft X s' k l')
              (fun s' => dftn X.sp (fun j => (y.data s' j : ℂ)) k) l
          else if l < L - 1 then
            lstsq X.S (L - 1) (fun s' l' => m._discrtizefft X s' k l')
              (fun s' => dftn X.sp (fun j => (y.data s' j : ℂ)) k) l
          else 0)
        else 0))
      (fun k => dftn X.sp (fun j => (y.data s j : ℂ)) k)
      (fun k hk => hmain s hs k hk) jj
    rw [h1, idftn_dftn _ _ jj hjj]
  have hre := congrArg Complex.re hfinal
  rw [Complex.ofReal_re] at hre
  exact hre

/-- A concrete solver satisfying the consistency property assumed of
`np.linalg.lstsq`: on a consistent system it returns a chosen exact
solution. -/
noncomputable def cLstsqW : Lstsq := fun S mm A b =>
  haveI : Decidable (∃ x : ℕ → ℂ, ∀ s, s < S →
      ∑ l ∈ Finset.range mm, A s l * x l = b s) := Classical.propDecidable _
  if h : ∃ x : ℕ → ℂ, ∀ s, s < S → ∑ l ∈ Finset.range mm, A s l * x l = b s
  then h.choose else fun _ => 0

theorem cLstsqW_consistent : ∀ (S mm : ℕ) (A : ℕ → ℕ → ℂ) (b : ℕ → ℂ),
    (∃ x : ℕ → ℂ, ∀ s, s < S → ∑ l ∈ Finset.range mm, A s l * x l = b s) →
    ∀ s, s < S → ∑ l ∈ Finset.range mm, A s l * cLstsqW S mm A b l = b s := by
  intro S mm A b h s hs
  unfold cLstsqW
  rw [dif_pos h]
  exact h.choose_spec s hs

/-- Witness for C2 at a concrete one-state calibration pair. -/
theorem C2_noiseless_recoverability_witness :
    ((∀ (S mm : ℕ) (A : ℕ → ℕ → ℂ) (b : ℕ → ℂ),
      (∃ x : ℕ → ℂ, ∀ s, s < S → ∑ l ∈ Finset.range mm, A s l * x l = b s) →
      ∀ s, s < S → ∑ l ∈ Finset.range mm, A s l * cLstsqW S mm A b l = b s) ∧
     (1:ℕ) ≠ 0 ∧ 1 ≤ cModelUnfit.basis.n_states ∧
     (∀ s j, inRange cX.sp j →
        ∑ l ∈ Finset.range cModelUnfit.basis.n_states,
          cModelUnfit.basis.discretize cX.data s j l = 1)) ∧
    (∃ m', cModelUnfit.fit cLstsqW cX cX = .ok m' ∧
      ∃ p, (m'.predict cX).2 = .ok p ∧
        ∀ s, s < cX.S → ∀ jj, inRange cX.sp jj →
          p.data s jj = cX.data s jj) :=
  ⟨⟨cLstsqW_consistent, by decide, by decide,
      fun s j _ => by simp [cModelUnfit, cBasis]⟩,
    C2_noiseless_recoverability cLstsqW cLstsqW_consistent cModelUnfit cX cX
      (by decide) rfl (by decide)
      (fun s j _ => by simp [cModelUnfit, cBasis])
      ⟨fun _ _ => 0, fun s _ p _ => by simp [cX, idftn]⟩⟩

/-! ## C8: the cross-correlation pair enumeration -/

/-- The unique roll amount `i ∈ [1, n]` for which the roll-by-`i` zip
pairs zero-based state `α` (first slot) with zero-based state `β`
(second slot). -/
def rollDist (n α β : ℕ) : ℕ := if β < α then α - β else n - (β - α)

/-- Hitting condition for one roll: the pair at first-slot state `α` of
the roll-by-`i` zip has second slot `β` exactly when `i` is `rollDist`. -/
theorem roll_hit_iff (n α β i : ℕ) (hα : α < n) (hβ : β < n) (hαβ : α ≠ β)
    (hi1 : 1 ≤ i) (hin : i ≤ n) :
    (α + (n - i)) % n = β ↔ i = rollDist n α β := by
  have hmod : (α + (n - i)) % n = β ↔
      (α + (n - i) = β ∨ α + (n - i) = β + n) := by
    rcases lt_or_ge (α + (n - i)) n with hc | hc
    · rw [Nat.mod_eq_of_lt hc]
      omega
    · rw [Nat.mod_eq_sub_mod hc, Nat.mod_eq_of_lt (by omega)]
      omega
  rw [hmod]
  unfold rollDist
  split <;> omega

/-- Comparison of two block-position encodings. -/
theorem mul_add_lt_mul_add_iff (x α yq r n : ℕ) (hα : α < n) (hr : r < n) :
    x * n + α < yq * n + r ↔ (x < yq ∨ (x = yq ∧ α < r)) := by
  constructor
  · intro h
    rcases lt_trichotomy x yq with hc | hc | hc
    · exact Or.inl hc
    · subst hc
      exact Or.inr ⟨rfl, by omega⟩
    · exfalso
      have : (yq + 1) * n ≤ x * n := Nat.mul_le_mul_right n hc
      have h2 : (yq + 1) * n = yq * n + n := by ring
      omega
  · intro h
    rcases h with hc | ⟨hc, hc2⟩
    · have : (x + 1) * n ≤ yq * n := Nat.mul_le_mul_right n hc
      have h2 : (x + 1) * n = x * n + n := by ring
      omega
    · subst hc
      omega

/-- `List.countP` over an initial segment of `ℕ` as a `Finset` count. -/
theorem countP_range (p : ℕ → Bool) (N : ℕ) :
    (List.range N).countP p =
      ((Finset.range N).filter (fun t => p t = true)).card := by
  induction N with
  | zero => simp
  | succ N ih =>
      rw [List.range_succ, List.countP_append, ih, Finset.range_succ,
        Finset.filter_insert]
      by_cases h : p N = true
      · rw [if_pos h, Finset.card_insert_of_not_mem (by simp)]
        simp [h]
      · rw [if_neg h]
        simp [h]

/-- Counting hits of a two-element target set inside `Finset.range N`. -/
theorem card_filter_pair (N t₁ t₂ : ℕ) (hne : t₁ ≠ t₂) :
    ((Finset.range N).filter (fun t => t = t₁ ∨ t = t₂)).card =
      (if t₁ < N then 1 else 0) + (if t₂ < N then 1 else 0) := by
  rw [Finset.filter_or, Finset.filter_eq', Finset.filter_eq']
  by_cases h1 : t₁ < N <;> by_cases h2 : t₂ < N <;>
    simp only [Finset.mem_range, h1, h2, if_true, if_false, ite_true, ite_false,
      Finset.union_empty, Finset.empty_union, Finset.card_singleton,
      Finset.card_empty]
  · rw [← Finset.insert_eq, Finset.card_pair hne]

/-- `Nslice` for even state counts. -/
theorem nslice_even (u : ℕ) (hu : 1 ≤ u) :
    (u + u) * (u + u - 1) / 2 = (u - 1) * (u + u) + u := by
  obtain ⟨v, rfl⟩ : ∃ v, u = v + 1 := ⟨u - 1, by omega⟩
  have h1 : (v + 1) + (v + 1) - 1 = 2 * v + 1 := by omega
  have h2 : v + 1 - 1 = v := by omega
  rw [h1, h2]
  rw [show ((v+1) + (v+1)) * (2 * v + 1) = 2 * ((2*v+1)*(v+1)) from by ring]
  rw [Nat.mul_div_cancel_left _ (by norm_num)]
  ring

/-- `Nslice` for odd state counts. -/
theorem nslice_odd (u : ℕ) :
    (2 * u + 1) * (2 * u + 1 - 1) / 2 = u * (2 * u + 1) + 0 := by
  have h1 : 2 * u + 1 - 1 = 2 * u := by omega
  rw [h1]
  rw [show (2 * u + 1) * (2 * u) = 2 * (u * (2 * u + 1)) from by ring]
  rw [Nat.mul_div_cancel_left _ (by norm_num)]
  ring

/-- The truncation length never exceeds the generated list length. -/
theorem nslice_le (n : ℕ) (hn : 2 ≤ n) : n * (n - 1) / 2 ≤ (n / 2) * n := by
  rcases Nat.even_or_odd n with ⟨u, hu⟩ | ⟨u, hu⟩
  · subst hu
    have hu1 : 1 ≤ u := by omega
    rw [nslice_even u hu1]
    have h2 : (u + u) / 2 = u := by omega
    rw [h2]
    have : (u - 1) * (u + u) + u ≤ (u - 1) * (u + u) + (u + u) := by omega
    calc (u - 1) * (u + u) + u ≤ (u - 1) * (u + u) + (u + u) := this
      _ = ((u - 1) + 1) * (u + u) := by ring
      _ = u * (u + u) := by congr 1; omega
  · subst hu
    rw [nslice_odd u]
    have h2 : (2 * u + 1) / 2 = u := by omega
    rw [h2]
    omega

/-- One roll of the zip in explicit form: entry `j` of
`zip(states, np.roll(states, r))` is `(j+1, ((j + (n-r)) % n) + 1)`. -/
theorem zip_roll_eq (n r : ℕ) (hr1 : 1 ≤ r) (hr : r < n) :
    ((List.range n).map (· + 1)).zip
        (tools.np_roll ((List.range n).map (· + 1)) r) =
      (List.range n).map (fun j => (j + 1, (j + (n - r)) % n + 1)) := by
  have hlen : ((List.range n).map (· + 1)).length = n := by simp
  have hrot : tools.np_roll ((List.range n).map (· + 1)) r =
      ((List.range n).map (· + 1)).rotate (n - r) := by
    unfold tools.np_roll
    rw [hlen, Nat.mod_eq_of_lt hr]
  rw [hrot]
  apply List.ext_getElem
  · simp
  · intro i h1 h2
    have hi : i < n := by simpa using h2
    simp only [List.getElem_zip, List.getElem_map, List.getElem_range,
      List.getElem_rotate, List.length_map, List.length_range]

/-- Concatenating the per-roll lists gives the block-position encoding. -/
theorem flatten_map_range {α : Type} (M n : ℕ) (g : ℕ → ℕ → α) :
    ((List.range M).map (fun i => (List.range n).map (g i))).flatten =
      (List.range (M * n)).map (fun t => g (t / n) (t % n)) := by
  induction M with
  | zero => simp
  | succ M ih =>
      rw [List.range_succ, List.map_append, List.flatten_append, ih]
      rw [show (M + 1) * n = M * n + n from by ring, List.range_add,
        List.map_append]
      congr 1
      simp only [List.map_cons, List.map_nil, List.flatten_cons,
        List.flatten_nil, List.append_nil]
      rw [List.map_map]
      refine (List.map_congr_left fun j hj => ?_).symm
      have hjn : j < n := List.mem_range.mp hj
      have hn0 : 0 < n := by omega
      simp only [Function.comp_apply]
      congr 1
      · rw [Nat.add_comm (M * n) j, Nat.add_mul_div_right j M hn0,
          Nat.div_eq_of_lt hjn, Nat.zero_add]
      · rw [Nat.add_comm (M * n) j, Nat.add_mul_mod_self_right,
          Nat.mod_eq_of_lt hjn]

/-- `tools._get_crosscorrelation_titles` in closed form: position `t`
holds the pair produced at offset `t % n` of the roll by `t / n + 1`. -/
theorem titles_eq (n : ℕ) (hn : 2 ≤ n) :
    tools._get_crosscorrelation_titles n =
      (List.range (n * (n - 1) / 2)).map (fun t =>
        (t % n + 1, (t % n + (n - (t / n + 1))) % n + 1)) := by
  unfold tools._get_crosscorrelation_titles
  dsimp only
  have hroll : ∀ i ∈ List.range (n / 2),
      ((List.range n).map (· + 1)).zip
          (tools.np_roll ((List.range n).map (· + 1)) (i + 1)) =
        (List.range n).map (fun j => (j + 1, (j + (n - (i + 1))) % n + 1)) := by
    intro i hi
    have hi2 : i < n / 2 := List.mem_range.mp hi
    exact zip_roll_eq n (i + 1) (by omega) (by omega)
  rw [List.map_congr_left hroll]
  rw [flatten_map_range (n / 2) n (fun i j => (j + 1, (j + (n - (i + 1))) % n + 1))]
  rw [← List.map_take, List.take_range, Nat.min_eq_left (nslice_le n hn)]

/-- Position `t` of the enumeration carries the ordered pair `(a, b)`
exactly when `t` is the canonical position determined by `rollDist`. -/
theorem title_hit_iff (n a b t : ℕ) (hn : 2 ≤ n) (ha1 : 1 ≤ a) (han : a ≤ n)
    (hb1 : 1 ≤ b) (hbn : b ≤ n) (hab : a ≠ b) (ht : t < n / 2 * n) :
    ((t % n + 1, (t % n + (n - (t / n + 1))) % n + 1) = (a, b) ↔
      t = (rollDist n (a - 1) (b - 1) - 1) * n + (a - 1)) := by
  have hn0 : 0 < n := by omega
  have hjn : t % n < n := Nat.mod_lt _ hn0
  have hdiv : t / n < n / 2 := (Nat.div_lt_iff_lt_mul hn0).mpr ht
  have hin : t / n + 1 ≤ n := by omega
  have hd : 1 ≤ rollDist n (a - 1) (b - 1) ∧
      rollDist n (a - 1) (b - 1) ≤ n - 1 := by
    unfold rollDist
    split <;> omega
  constructor
  · intro h
    have h1 : t % n + 1 = a := congrArg Prod.fst h
    have h2 : (t % n + (n - (t / n + 1))) % n + 1 = b := congrArg Prod.snd h
    have hj : t % n = a - 1 := by omega
    rw [hj] at h2
    have h2' : (a - 1 + (n - (t / n + 1))) % n = b - 1 := by omega
    have hα' : a - 1 < n := by omega
    have hβ' : b - 1 < n := by omega
    have hαβ' : a - 1 ≠ b - 1 := by omega
    have hi1' : 1 ≤ t / n + 1 := Nat.le_add_left 1 (t / n)
    have hi : t / n + 1 = rollDist n (a - 1) (b - 1) :=
      (roll_hit_iff n (a - 1) (b - 1) (t / n + 1) hα' hβ' hαβ' hi1' hin).mp h2'
    have hmod := Nat.div_add_mod t n
    have hdiv2 : t / n = rollDist n (a - 1) (b - 1) - 1 := by omega
    rw [← hmod, hdiv2, hj]
    ring
  · intro h
    have hj2 : t % n = a - 1 := by
      rw [h, Nat.mul_comm, Nat.mul_add_mod]
      exact Nat.mod_eq_of_lt (by omega)
    have hj3 : t / n = rollDist n (a - 1) (b - 1) - 1 := by
      rw [h, Nat.mul_comm, Nat.mul_add_div hn0, Nat.div_eq_of_lt (by omega),
        Nat.add_zero]
    rw [Prod.mk.injEq]
    refine ⟨by omega, ?_⟩
    rw [hj2, hj3]
    have hd1 : rollDist n (a - 1) (b - 1) - 1 + 1 =
        rollDist n (a - 1) (b - 1) := by omega
    rw [hd1]
    have := (roll_hit_iff n (a - 1) (b - 1) (rollDist n (a - 1) (b - 1))
      (by omega) (by omega) (by omega) (by omega) (by omega)).mpr rfl
    omega

/-- C8: for every `n_states ≥ 2` the enumeration has exactly
`n(n-1)/2` entries and contains exactly one ordered representative of
every unordered pair of distinct states. -/
theorem C8_crosscorrelation_pairs (n : ℕ) (hn : 2 ≤ n) (a b : ℕ)
    (ha1 : 1 ≤ a) (han : a ≤ n) (hb1 : 1 ≤ b) (hbn : b ≤ n) (hab : a ≠ b) :
    (tools._get_crosscorrelation_titles n).length = n * (n - 1) / 2 ∧
    (tools._get_crosscorrelation_titles n).countP
      (fun q => decide (q = (a, b) ∨ q = (b, a))) = 1 := by
  have hn0 : 0 < n := by omega
  constructor
  · rw [titles_eq n hn, List.length_map, List.length_range]
  · rw [titles_eq n hn, List.countP_map, countP_range]
    have hiffall : ∀ t ∈ Finset.range (n * (n - 1) / 2),
        (((fun q => decide (q = (a, b) ∨ q = (b, a))) ∘ fun t =>
          (t % n + 1, (t % n + (n - (t / n + 1))) % n + 1)) t = true ↔
          (t = (rollDist n (a - 1) (b - 1) - 1) * n + (a - 1) ∨
           t = (rollDist n (b - 1) (a - 1) - 1) * n + (b - 1))) := by
      intro t htm
      have ht : t < n / 2 * n :=
        lt_of_lt_of_le (Finset.mem_range.mp htm) (nslice_le n hn)
      simp only [Function.comp_apply, decide_eq_true_eq]
      rw [title_hit_iff n a b t hn ha1 han hb1 hbn hab ht,
        title_hit_iff n b a t hn hb1 hbn ha1 han (fun hc => hab hc.symm) ht]
    rw [Finset.filter_congr hiffall]
    have hne : (rollDist n (a - 1) (b - 1) - 1) * n + (a - 1) ≠
        (rollDist n (b - 1) (a - 1) - 1) * n + (b - 1) := by
      intro hcon
      have e1 : ((rollDist n (a - 1) (b - 1) - 1) * n + (a - 1)) % n = a - 1 := by
        rw [Nat.mul_comm, Nat.mul_add_mod]
        exact Nat.mod_eq_of_lt (by omega)
      have e2 : ((rollDist n (b - 1) (a - 1) - 1) * n + (b - 1)) % n = b - 1 := by
        rw [Nat.mul_comm, Nat.mul_add_mod]
        exact Nat.mod_eq_of_lt (by omega)
      rw [hcon] at e1
      omega
    rw [card_filter_pair _ _ _ hne]
    rcases Nat.even_or_odd n with ⟨u, hu⟩ | ⟨u, hu⟩
    · have hu1 : 1 ≤ u := by omega
      have hNs : n * (n - 1) / 2 = (u - 1) * n + u := by
        rw [hu]
        exact nslice_even u hu1
      have hiff1 : ((rollDist n (a - 1) (b - 1) - 1) * n + (a - 1) <
          n * (n - 1) / 2) ↔
          (rollDist n (a - 1) (b - 1) - 1 < u - 1 ∨
            (rollDist n (a - 1) (b - 1) - 1 = u - 1 ∧ a - 1 < u)) := by
        rw [hNs]
        exact mul_add_lt_mul_add_iff _ _ _ _ n (by omega) (by omega)
      have hiff2 : ((rollDist n (b - 1) (a - 1) - 1) * n + (b - 1) <
          n * (n - 1) / 2) ↔
          (rollDist n (b - 1) (a - 1) - 1 < u - 1 ∨
            (rollDist n (b - 1) (a - 1) - 1 = u - 1 ∧ b - 1 < u)) := by
        rw [hNs]
        exact mul_add_lt_mul_add_iff _ _ _ _ n (by omega) (by omega)
      have hd1v : rollDist n (a - 1) (b - 1) =
          if b - 1 < a - 1 then (a - 1) - (b - 1) else n - ((b - 1) - (a - 1)) :=
        rfl
      have hd2v : rollDist n (b - 1) (a - 1) =
          if a - 1 < b - 1 then (b - 1) - (a - 1) else n - ((a - 1) - (b - 1)) :=
        rfl
      by_cases h1 : (rollDist n (a - 1) (b - 1) - 1) * n + (a - 1) <
          n * (n - 1) / 2 <;>
        by_cases h2 : (rollDist n (b - 1) (a - 1) - 1) * n + (b - 1) <
          n * (n - 1) / 2
      · exfalso
        rw [hiff1] at h1
        rw [hiff2] at h2
        rcases Nat.lt_or_ge (b - 1) (a - 1) with hord | hord <;>
          [rw [if_pos hord] at hd1v; rw [if_neg (by omega)] at hd1v] <;>
          [rw [if_neg (by omega)] at hd2v; rw [if_pos (by omega)] at hd2v] <;>
          omega
      · rw [if_pos h1, if_neg h2]
      · rw [if_neg h1, if_pos h2]
      · exfalso
        rw [hiff1] at h1
        rw [hiff2] at h2
        rcases Nat.lt_or_ge (b - 1) (a - 1) with hord | hord <;>
          [rw [if_pos hord] at hd1v; rw [if_neg (by omega)] at hd1v] <;>
          [rw [if_neg (by omega)] at hd2v; rw [if_pos (by omega)] at hd2v] <;>
          omega
    · have hNs : n * (n - 1) / 2 = u * n + 0 := by
        rw [hu]
        exact nslice_odd u
      have hiff1 : ((rollDist n (a - 1) (b - 1) - 1) * n + (a - 1) <
          n * (n - 1) / 2) ↔
          (rollDist n (a - 1) (b - 1) - 1 < u ∨
            (rollDist n (a - 1) (b - 1) - 1 = u ∧ a - 1 < 0)) := by
        rw [hNs]
        exact mul_add_lt_mul_add_iff _ _ _ _ n (by omega) (by omega)
      have hiff2 : ((rollDist n (b - 1) (a - 1) - 1) * n + (b - 1) <
          n * (n - 1) / 2) ↔
          (rollDist n (b - 1) (a - 1) - 1 < u ∨
            (rollDist n (b - 1) (a - 1) - 1 = u ∧ b - 1 < 0)) := by
        rw [hNs]
        exact mul_add_lt_mul_add_iff _ _ _ _ n (by omega) (by omega)
      have hd1v : rollDist n (a - 1) (b - 1) =
          if b - 1 < a - 1 then (a - 1) - (b - 1) else n - ((b - 1) - (a - 1)) :=
        rfl
      have hd2v : rollDist n (b - 1) (a - 1) =
          if a - 1 < b - 1 then (b - 1) - (a - 1) else n - ((a - 1) - (b - 1)) :=
        rfl
      by_cases h1 : (rollDist n (a - 1) (b - 1) - 1) * n + (a - 1) <
          n * (n - 1) / 2 <;>
        by_cases h2 : (rollDist n (b - 1) (a - 1) - 1) * n + (b - 1) <
          n * (n - 1) / 2
      · exfalso
        rw [hiff1] at h1
        rw [hiff2] at h2
        rcases Nat.lt_or_ge (b - 1) (a - 1) with hord | hord <;>
          [rw [if_pos hord] at hd1v; rw [if_neg (by omega)] at hd1v] <;>
          [rw [if_neg (by omega)] at hd2v; rw [if_pos (by omega)] at hd2v] <;>
          omega
      · rw [if_pos h1, if_neg h2]
      · rw [if_neg h1, if_pos h2]
      · exfalso
        rw [hiff1] at h1
        rw [hiff2] at h2
        rcases Nat.lt_or_ge (b - 1) (a - 1) with hord | hord <;>
          [rw [if_pos hord] at hd1v; rw [if_neg (by omega)] at hd1v] <;>
          [rw [if_neg (by omega)] at hd2v; rw [if_pos (by omega)] at hd2v] <;>
          omega

/-- Witness for C8 at `n_states = 4` and the pair `{1, 4}`. -/
theorem C8_crosscorrelation_pairs_witness :
    (2 ≤ 4 ∧ 1 ≤ 1 ∧ 1 ≤ 4 ∧ (1 : ℕ) ≠ 4) ∧
    ((tools._get_crosscorrelation_titles 4).length = 4 * (4 - 1) / 2 ∧
    (tools._get_crosscorrelation_titles 4).countP
      (fun q => decide (q = (1, 4) ∨ q = (4, 1))) = 1) :=
  ⟨⟨by decide, by decide, by decide, by decide⟩,
    C8_crosscorrelation_pairs 4 (by decide) 1 4 (by decide) (by decide)
      (by decide) (by decide) (by decide)⟩

/-- Witness for C10 at a concrete shape-matching kernel/input pair. -/
theorem C10_correlation_convolve_witness :
    cKer3.shape = cKer3.shape ∧
    (∃ C, Correlation.init cKer3 none = .ok C ∧
      Correlation.convolve C cKer3 = .ok ⟨cKer3.S, cKer3.sp, cKer3.L,
        fun s j l =>
          idftn cKer3.sp (fun k =>
            dftn cKer3.sp (fun j' =>
              cKer3.data (Filter.bcast cKer3.S s) j' (Filter.bcast cKer3.L l)) k *
              starRingEnd ℂ (dftn cKer3.sp (fun j' =>
                cKer3.data (Filter.bcast cKer3.S s) j'
                  (Filter.bcast cKer3.L l)) k))
            (fftshiftIdx cKer3.sp j)⟩) :=
  ⟨rfl, C10_correlation_convolve cKer3 cKer3 rfl⟩
